import Mathlib

/-!
Verification of the strix LLM interaction runtime.

This development shallowly embeds the tool-call wire protocol
(`src/strix/llm/utils.py`), the stream-assembler final truncation and the
cache/retry logic (`src/strix/llm/llm.py`), and the request-gateway spacing
computation (`src/strix/llm/request_queue.py`).  Strings are embedded as
`List Char`; Python regular-expression scans are embedded as explicit
left-to-right scanners that replicate the semantics of the concrete patterns
used by the source.  Recursions that skip ahead in the input are written with
an explicit fuel argument (initialised to the input length, which is always
sufficient) so that every definition reduces by evaluation.
-/

namespace Strix

/-- Python whitespace characters relevant to `str.strip` / `str.rstrip`
(the ASCII whitespace set; the repository only manipulates ASCII protocol
text around these calls). -/
def wsChar (c : Char) : Bool :=
  c = ' ' || c = '\t' || c = '\n' || c = '\r' || c = '\x0b' || c = '\x0c'

/-- Embedding of Python `str.rstrip()`: drop trailing whitespace. -/
def pyRStrip (s : List Char) : List Char :=
  ((s.reverse).dropWhile wsChar).reverse

/-- Embedding of Python `str.lstrip()`: drop leading whitespace. -/
def pyLStrip (s : List Char) : List Char :=
  s.dropWhile wsChar

/-- Embedding of Python `str.strip()`: drop whitespace at both ends. -/
def pyStrip (s : List Char) : List Char :=
  pyLStrip (pyRStrip s)

/-- Boolean test that `pat` is a prefix of `s` (the anchored-match step of a
regex literal / Python `startswith`). -/
def beginsWith : List Char → List Char → Bool
  | [], _ => true
  | _ :: _, [] => false
  | a :: as, b :: bs => a == b && beginsWith as bs

/-- Boolean test that `pat` is a suffix of `s` (Python `str.endswith`). -/
def endsWith (pat s : List Char) : Bool :=
  beginsWith pat.reverse s.reverse

/-- First occurrence of `pat` as a substring: returns the text before the
occurrence and the text after it.  This is the semantics of a lazy
`(.*?)pat` regex fragment and of Python `str.find`. -/
def splitAtFirst (pat : List Char) : List Char → Option (List Char × List Char)
  | [] => if beginsWith pat [] then some ([], []) else none
  | c :: rest =>
    if beginsWith pat (c :: rest) then some ([], (c :: rest).drop pat.length)
    else
      match splitAtFirst pat rest with
      | some (b, a) => some (c :: b, a)
      | none => none

/-- Substring test (Python `in` on strings). -/
def hasSub (pat : List Char) (s : List Char) : Bool :=
  (splitAtFirst pat s).isSome

/-- Fuelled scanner counting non-overlapping occurrences left to right
(Python `str.count`). -/
def countSubF (pat : List Char) : Nat → List Char → Nat
  | 0, _ => 0
  | _ + 1, [] => 0
  | fuel + 1, c :: rest =>
    if beginsWith pat (c :: rest) then
      1 + countSubF pat fuel ((c :: rest).drop pat.length)
    else
      countSubF pat fuel rest

/-- Python `str.count`: non-overlapping substring count. -/
def countSub (pat s : List Char) : Nat :=
  countSubF pat s.length s

/-- Fuelled scanner returning the start indices of the non-overlapping
occurrences of a literal pattern, left to right — the semantics of
`re.finditer` on a literal regex. -/
def litFindStartsF (pat : List Char) : Nat → List Char → Nat → List Nat
  | 0, _, _ => []
  | _ + 1, [], _ => []
  | fuel + 1, c :: rest, i =>
    if beginsWith pat (c :: rest) then
      i :: litFindStartsF pat fuel ((c :: rest).drop pat.length) (i + pat.length)
    else
      litFindStartsF pat fuel rest (i + 1)

/-- Start indices of occurrences of a literal pattern in `s`. -/
def litFindStarts (pat s : List Char) : List Nat :=
  litFindStartsF pat s.length s 0

/-- Fuelled model of Python `html.unescape`, restricted to the five standard
named character references written with a terminating semicolon.  The
parameter values handled by the verified claims contain no ampersand, on
which the real function and this model agree (both are the identity). -/
def htmlUnescapeF : Nat → List Char → List Char
  | 0, s => s
  | _ + 1, [] => []
  | fuel + 1, c :: rest =>
    if c = '&' then
      if beginsWith "amp;".toList rest then '&' :: htmlUnescapeF fuel (rest.drop 4)
      else if beginsWith "lt;".toList rest then '<' :: htmlUnescapeF fuel (rest.drop 3)
      else if beginsWith "gt;".toList rest then '>' :: htmlUnescapeF fuel (rest.drop 3)
      else if beginsWith "quot;".toList rest then '"' :: htmlUnescapeF fuel (rest.drop 5)
      else if beginsWith "apos;".toList rest then '\'' :: htmlUnescapeF fuel (rest.drop 5)
      else c :: htmlUnescapeF fuel rest
    else c :: htmlUnescapeF fuel rest

/-- Model of Python `html.unescape` (see `htmlUnescapeF`). -/
def htmlUnescape (s : List Char) : List Char :=
  htmlUnescapeF s.length s

/-! ## Tool-call wire protocol (`src/strix/llm/utils.py`) -/

/-- The function-opening literal `"<function="`. -/
def openTag : List Char := "<function=".toList

/-- The function-closing literal `"</function>"`. -/
def closeTag : List Char := "</function>".toList

/-- The parameter-opening literal `"<parameter="`. -/
def paramOpenTag : List Char := "<parameter=".toList

/-- The parameter-closing literal `"</parameter>"`. -/
def paramCloseTag : List Char := "</parameter>".toList

/-- Python `"\n".join`: interleave a newline between the parts. -/
def joinNL : List (List Char) → List Char
  | [] => []
  | [x] => x
  | x :: y :: rest => x ++ '\n' :: joinNL (y :: rest)

/-- Embedding of `format_tool_call`: builds the XML-ish parts list and joins
with newlines, exactly as the Python source does. -/
def format_tool_call (tool_name : List Char)
    (args : List (List Char × List Char)) : List Char :=
  let xml_parts : List (List Char) :=
    (openTag ++ tool_name ++ ['>']) ::
      (args.map fun kv => paramOpenTag ++ kv.1 ++ ['>'] ++ kv.2 ++ paramCloseTag)
      ++ [closeTag]
  joinNL xml_parts

/-- The joined parameter lines of an encoded call, each followed by the
newline that `"\n".join` places before the next part — the function body that
decoding sees between `"<function=NAME>\n"` and `"</function>"`. -/
def paramsBlob (args : List (List Char × List Char)) : List Char :=
  args.foldr
    (fun kv acc =>
      paramOpenTag ++ kv.1 ++ ['>'] ++ kv.2 ++ paramCloseTag ++ ['\n'] ++ acc) []

/-- Embedding of `fix_incomplete_tool_call`: when the text has exactly one
`"<function="` opener and no `"</function>"` closer, right-strip it and append
the synthesized closer (completing a trailing `"</"` when present). -/
def fix_incomplete_tool_call (content : List Char) : List Char :=
  if hasSub openTag content && (countSub openTag content == 1)
      && !(hasSub closeTag content) then
    let c := pyRStrip content
    if endsWith "</".toList c then c ++ "function>".toList
    else c ++ "\n</function>".toList
  else content

/-- Anchored match of the function-block regex
`<function=([^>]+)>\n?(.*?)</function>` (with `re.DOTALL`) at the head of
`s`: the greedy `[^>]+` takes everything up to the first `>`, the greedy
`\n?` consumes one newline when present (the closing literal cannot start
with a newline, so no backtracking case is lost), and the lazy body runs to
the first occurrence of the closing literal.  Returns the captured
(name, body) and the unconsumed rest. -/
def matchFnAt (s : List Char) : Option ((List Char × List Char) × List Char) :=
  if beginsWith openTag s then
    let s1 := s.drop openTag.length
    let name := s1.takeWhile (fun c => c ≠ '>')
    if name.isEmpty then none
    else
      match s1.dropWhile (fun c => c ≠ '>') with
      | [] => none
      | _ :: s3 =>
        let s4 := if s3.head? = some '\n' then s3.tail else s3
        match splitAtFirst closeTag s4 with
        | some (body, rest) => some ((name, body), rest)
        | none => none
  else none

/-- Fuelled left-to-right scan for all non-overlapping function blocks
(`re.finditer` of the function-block regex): try an anchored match at every
position, resuming after the end of each match. -/
def findFnBlocksF : Nat → List Char → List (List Char × List Char)
  | 0, _ => []
  | _ + 1, [] => []
  | fuel + 1, c :: rest =>
    match matchFnAt (c :: rest) with
    | some (blk, rest') => blk :: findFnBlocksF fuel rest'
    | none => findFnBlocksF fuel rest

/-- All function blocks of `s`, in order. -/
def findFnBlocks (s : List Char) : List (List Char × List Char) :=
  findFnBlocksF s.length s

/-- Anchored match of the parameter regex `<parameter=([^>]+)>(.*?)</parameter>`
(with `re.DOTALL`) at the head of `s`. -/
def matchParamAt (s : List Char) : Option ((List Char × List Char) × List Char) :=
  if beginsWith paramOpenTag s then
    let s1 := s.drop paramOpenTag.length
    let key := s1.takeWhile (fun c => c ≠ '>')
    if key.isEmpty then none
    else
      match s1.dropWhile (fun c => c ≠ '>') with
      | [] => none
      | _ :: s3 =>
        match splitAtFirst paramCloseTag s3 with
        | some (v, rest) => some ((key, v), rest)
        | none => none
  else none

/-- Fuelled scan for all non-overlapping parameter blocks of a function body. -/
def findParamBlocksF : Nat → List Char → List (List Char × List Char)
  | 0, _ => []
  | _ + 1, [] => []
  | fuel + 1, c :: rest =>
    match matchParamAt (c :: rest) with
    | some (blk, rest') => blk :: findParamBlocksF fuel rest'
    | none => findParamBlocksF fuel rest

/-- All parameter blocks of a function body, in order. -/
def findParamBlocks (s : List Char) : List (List Char × List Char) :=
  findParamBlocksF s.length s

/-- Python-dict insertion: overwrite the value of an existing key in place,
otherwise append the binding (insertion order preserved). -/
def dictInsert (k v : List Char) :
    List (List Char × List Char) → List (List Char × List Char)
  | [] => [(k, v)]
  | (k', v') :: rest =>
    if k' = k then (k, v) :: rest else (k', v') :: dictInsert k v rest

/-- The argument dictionary of one function body: each parameter value is
stripped and HTML-unescaped, then inserted into the dict. -/
def parseParams (body : List Char) : List (List Char × List Char) :=
  (findParamBlocks body).foldl
    (fun d kv => dictInsert kv.1 (htmlUnescape (pyStrip kv.2)) d) []

/-- One decoded tool invocation (the Python dict
`{"toolName": ..., "args": ...}`). -/
structure ToolInvocation where
  toolName : List Char
  args : List (List Char × List Char)
deriving DecidableEq, Repr

/-- Embedding of `parse_tool_invocations`: repair, extract every function
block, decode its parameters, and return `none` (Python `None`) when no block
decodes. -/
def parse_tool_invocations (content : List Char) : Option (List ToolInvocation) :=
  let content := fix_incomplete_tool_call content
  let tool_invocations :=
    (findFnBlocks content).map fun blk =>
      ToolInvocation.mk blk.1 (parseParams blk.2)
  if tool_invocations.isEmpty then none else some tool_invocations

/-! ## Stream assembler final truncation (`LLM._stream_and_accumulate`) -/

/-- Embedding of `_truncate_to_first_function`: when the text has two or more
`"<function="` openers, keep only the (right-stripped) text before the second
one. -/
def truncate_to_first_function (content : List Char) : List Char :=
  if content.isEmpty then content
  else
    let function_starts := litFindStarts openTag content
    if 2 ≤ function_starts.length then
      pyRStrip (content.take (function_starts.getD 1 0))
    else content

/-- Cutting a text at the end of its first `"</function>"` closer, when one is
present (the `accumulated_content.find("</function>") + len(...)` step). -/
def cutAtFirstCloser (s : List Char) : List Char :=
  match splitAtFirst closeTag s with
  | some (b, _) => b ++ closeTag
  | none => s

/-- The assembler's end-of-stream content: duplicate-block truncation followed
by the single-closing-tag truncation, as in `_stream_and_accumulate`. -/
def finalContent (accumulated : List Char) : List Char :=
  cutAtFirstCloser (truncate_to_first_function accumulated)

/-- The `tool_invocations` field of the final `LLMResponse`:
`tool_invocations if tool_invocations else None` applied to the parse of the
final content. -/
def finalToolInvocations (accumulated : List Char) : Option (List ToolInvocation) :=
  match parse_tool_invocations (finalContent accumulated) with
  | some l => if l.isEmpty then none else some l
  | none => none

/-! ## Cache placement policy (`LLM._prepare_cached_messages`), value level -/

/-- One content part (a Python dict such as `{"type": "text", "text": ...}`);
`cc` records the presence of a `"cache_control"` entry. -/
structure Part where
  ptype : List Char
  ptext : List Char
  cc : Bool
deriving DecidableEq, Repr

/-- Message content: either a plain string or a list of content parts. -/
inductive Content where
  | strC : List Char → Content
  | partsC : List Part → Content
deriving DecidableEq, Repr

/-- One conversation message. -/
structure Msg where
  role : List Char
  content : Content
deriving DecidableEq, Repr

instance : Inhabited Msg := ⟨⟨[], .strC []⟩⟩

/-- Embedding of `_add_cache_control_to_content`: wrap a string as a single
cache-flagged text part; flag the last part of a part list when it is a text
part; otherwise return the content unchanged. -/
def addCacheControl : Content → Content
  | .strC s => .partsC [⟨"text".toList, s, true⟩]
  | .partsC l =>
    match l.getLast? with
    | some last =>
      if last.ptype = "text".toList then
        .partsC (l.dropLast ++ [{ last with cc := true }])
      else .partsC l
    | none => .partsC l

/-- A message is marked cacheable when some part of its content carries a
`cache_control` entry. -/
def isMarked (m : Msg) : Bool :=
  match m.content with
  | .strC _ => false
  | .partsC l => l.any (·.cc)

/-- Decidable test that a message's content is a plain string (the common
shape of conversation messages). -/
def isStrContent (m : Msg) : Bool :=
  match m.content with
  | .strC _ => true
  | .partsC _ => false

/-- Marking one message: `message.copy()` with its content replaced by
`_add_cache_control_to_content(message["content"])`. -/
def markMsg (m : Msg) : Msg :=
  { m with content := addCacheControl m.content }

/-- Embedding of `LLM._is_anthropic_model`: the lowercased model name contains
`"anthropic/"` or `"claude"` (an empty name is not Anthropic). -/
def isAnthropicModel (model_name : List Char) : Bool :=
  if model_name.isEmpty then false
  else
    let lower := model_name.map Char.toLower
    hasSub "anthropic/".toList lower || hasSub "claude".toList lower

/-- Fuelled embedding of the `while non_system_messages // interval > 3` loop
of `_calculate_cache_interval`; the fuel (instantiated to the message count)
always suffices because the loop stops as soon as the interval exceeds `n`. -/
def cacheIntervalLoopF (n : Nat) : Nat → Nat → Nat
  | 0, interval => interval
  | fuel + 1, interval =>
    if n / interval > 3 then cacheIntervalLoopF n fuel (interval + 10)
    else interval

/-- Embedding of `LLM._calculate_cache_interval`. -/
def calculate_cache_interval (total_messages : Nat) : Nat :=
  if total_messages ≤ 1 then 10
  else cacheIntervalLoopF (total_messages - 1) total_messages 10

/-- Python `range(start, stop, step)` for a positive step. -/
def pyRange (start stop step : Nat) : List Nat :=
  List.range' start ((stop - start + step - 1) / step) step

/-- The `for i in range(interval, total_messages, interval)` marking loop of
`_prepare_cached_messages`: stop after three marks, mark in-range positions. -/
def cacheLoop : List Msg → List Nat → Nat → List Msg
  | msgs, [], _ => msgs
  | msgs, p :: rest, cached_count =>
    if 3 ≤ cached_count then msgs
    else if p < msgs.length then
      cacheLoop (msgs.set p (markMsg (msgs.getD p default))) rest (cached_count + 1)
    else cacheLoop msgs rest cached_count

/-- The configuration fields of `LLMConfig` consulted here, together with the
result of the external `litellm.supports_prompt_caching` capability lookup
(modelled as a boolean field). -/
structure LLMCfg where
  enablePromptCaching : Bool
  supportsPromptCaching : Bool
  modelName : List Char

/-- Value-level embedding of `LLM._prepare_cached_messages` (its pure
input/output behaviour; the store-level embedding below additionally models
the Python object mutations). -/
def prepare_cached_messages (cfg : LLMCfg) (messages : List Msg) : List Msg :=
  if !cfg.enablePromptCaching || !cfg.supportsPromptCaching || messages.isEmpty then
    messages
  else if !isAnthropicModel cfg.modelName then messages
  else
    let cached := messages
    let cached :=
      match cached.head? with
      | some m0 => if m0.role = "system".toList then cached.set 0 (markMsg m0) else cached
      | none => cached
    let total := cached.length
    if 1 < total then
      cacheLoop cached (pyRange (calculate_cache_interval total) total
        (calculate_cache_interval total)) 0
    else cached

/-! ## Retry policy (`LLM.generate` and the retry constants) -/

/-- `MAX_RETRIES` from `llm.py`. -/
def MAX_RETRIES : Nat := 5

/-- `RETRY_MULTIPLIER` from `llm.py`. -/
def RETRY_MULTIPLIER : Nat := 8

/-- `RETRY_MIN` from `llm.py`. -/
def RETRY_MIN : Nat := 8

/-- `RETRY_MAX` from `llm.py`. -/
def RETRY_MAX : Nat := 64

/-- Outcome of one streaming attempt: success, or an exception classified by
`_should_retry`. -/
inductive AttemptOutcome where
  | ok : AttemptOutcome
  | err : Bool → AttemptOutcome

/-- The body of `generate`'s `for attempt in range(MAX_RETRIES)` loop, driven
by the outcome of each attempt. The first component counts attempts made; the
second lists each `(attempt, wait_time)` slept before a retry, where
`wait_time = max(RETRY_MIN, min(RETRY_MAX, RETRY_MULTIPLIER * 2**attempt))`. -/
def generateGo (outcome : Nat → AttemptOutcome) : Nat → Nat → Nat × List (Nat × Nat)
  | 0, i => (i, [])
  | rem + 1, i =>
    match outcome i with
    | .ok => (i + 1, [])
    | .err retryable =>
      if !retryable || rem = 0 then (i + 1, [])
      else
        let wait := max RETRY_MIN (min RETRY_MAX (RETRY_MULTIPLIER * 2 ^ i))
        let r := generateGo outcome rem (i + 1)
        (r.1, (i, wait) :: r.2)

/-- The attempts made and backoff waits slept by one `generate` call. -/
def generateAttempts (outcome : Nat → AttemptOutcome) : Nat × List (Nat × Nat) :=
  generateGo outcome MAX_RETRIES 0

/-! ## Request gateway spacing (`LLMRequestQueue.stream_request`) -/

/-- One pass through the gateway's locked scheduling section: from the stored
`last_request_time` and the caller's clock reading `now`, compute
`sleep_needed = max(0, delay - (now - last))` and reserve the next slot by
storing `now + sleep_needed`; the dispatch then starts at `now + sleep_needed`
(time is modelled by rationals; sleeping is modelled as exact). -/
def gatewayStep (delay last now : ℚ) : ℚ :=
  now + max 0 (delay - (now - last))

/-- The dispatch start times of a sequence of callers entering the locked
section with clock readings `nows`, starting from stored time `last` (the
lock serialises the section, so the entries form a sequence). -/
def dispatchTimes (delay : ℚ) : ℚ → List ℚ → List ℚ
  | _, [] => []
  | last, now :: rest =>
    gatewayStep delay last now :: dispatchTimes delay (gatewayStep delay last now) rest

/-! ## Store-level model of message preparation

The frame-effect claims are about Python object mutation, so the two message
preparation functions are additionally embedded over an explicit object store:
lists and dicts live on a heap addressed by allocation index, and every Python
expression that allocates, reads or writes an object becomes an explicit store
operation.  Message values are strings or references. -/

/-- A Python value as handled by message preparation: a string, a reference to
a heap list, or a reference to a heap dict. -/
inductive PyVal where
  | vstr : List Char → PyVal
  | vlist : Nat → PyVal
  | vdict : Nat → PyVal
deriving DecidableEq, Repr

/-- The object store: heaps of lists and of dicts, addressed by index. -/
structure Store where
  lists : List (List PyVal)
  dicts : List (List (List Char × PyVal))
deriving Repr

/-- Allocate a fresh list object. -/
def allocList (st : Store) (l : List PyVal) : Nat × Store :=
  (st.lists.length, { st with lists := st.lists ++ [l] })

/-- Allocate a fresh dict object. -/
def allocDict (st : Store) (d : List (List Char × PyVal)) : Nat × Store :=
  (st.dicts.length, { st with dicts := st.dicts ++ [d] })

/-- Contents of the list at address `a` (empty when the address is invalid). -/
def listAt (st : Store) (a : Nat) : List PyVal :=
  st.lists.getD a []

/-- Entries of the dict at address `a` (empty when the address is invalid). -/
def dictAt (st : Store) (a : Nat) : List (List Char × PyVal) :=
  st.dicts.getD a []

/-- Replace the whole contents of list object `a` (used for element
assignment, `clear` + `extend`, and `append`). -/
def listWrite (st : Store) (a : Nat) (l : List PyVal) : Store :=
  { st with lists := st.lists.set a l }

/-- Python dict lookup `d.get(k)`. -/
def dictLookup (st : Store) (a : Nat) (k : List Char) : Option PyVal :=
  (dictAt st a).lookup k

/-- Overwrite-or-append on an association list (Python dict item assignment,
insertion order preserved). -/
def assocSet (k : List Char) (v : PyVal) :
    List (List Char × PyVal) → List (List Char × PyVal)
  | [] => [(k, v)]
  | (k', v') :: rest =>
    if k' = k then (k, v) :: rest else (k', v') :: assocSet k v rest

/-- Python `d[k] = v` on the dict object at address `a`. -/
def dictWrite (st : Store) (a : Nat) (k : List Char) (v : PyVal) : Store :=
  { st with dicts := st.dicts.set a (assocSet k v (dictAt st a)) }

/-- Store-level embedding of `_add_cache_control_to_content`: every branch
only allocates new objects (`[{...}]`, `content[:-1] + [{**last_item, ...}]`),
never writes an existing one.  A non-string, non-list content or a non-dict
last item falls through to the `return content` branch. -/
def addCacheControlSt (st : Store) (content : PyVal) : PyVal × Store :=
  match content with
  | .vstr s =>
    let (cc, st1) := allocDict st [("type".toList, .vstr "ephemeral".toList)]
    let (d, st2) := allocDict st1
      [("type".toList, .vstr "text".toList), ("text".toList, .vstr s),
       ("cache_control".toList, .vdict cc)]
    let (l, st3) := allocList st2 [.vdict d]
    (.vlist l, st3)
  | .vlist a =>
    let items := listAt st a
    match items.getLast? with
    | some (.vdict da) =>
      if dictLookup st da "type".toList = some (.vstr "text".toList) then
        let (cc, st1) := allocDict st [("type".toList, .vstr "ephemeral".toList)]
        let (nd, st2) := allocDict st1
          (assocSet "cache_control".toList (.vdict cc) (dictAt st1 da))
        let (nl, st3) := allocList st2 (items.dropLast ++ [.vdict nd])
        (.vlist nl, st3)
      else (.vlist a, st)
    | _ => (.vlist a, st)
  | .vdict a => (.vdict a, st)

/-- Marking one message of the fresh `cached_messages` list at position `p`:
`message = cached_messages[i].copy()`, `message["content"] = _add_cache_control
_to_content(message["content"])`, `cached_messages[i] = message`.  A non-dict
element (which would raise in Python and never occurs for real messages) is
left untouched; a missing `"content"` key (a `KeyError` in Python) is read as
the empty string. -/
def markAtSt (st : Store) (ca : Nat) (p : Nat) : Store :=
  match (listAt st ca).getD p (.vstr []) with
  | .vdict d =>
    let (dc, st1) := allocDict st (dictAt st d)
    let contentVal := (dictLookup st1 dc "content".toList).getD (.vstr [])
    let (nc, st2) := addCacheControlSt st1 contentVal
    let st3 := dictWrite st2 dc "content".toList nc
    listWrite st3 ca ((listAt st3 ca).set p (.vdict dc))
  | _ => st

/-- Store-level `for i in range(interval, total, interval)` marking loop. -/
def cacheLoopSt (st : Store) (ca : Nat) : List Nat → Nat → Store
  | [], _ => st
  | p :: rest, cached_count =>
    if 3 ≤ cached_count then st
    else if p < (listAt st ca).length then
      cacheLoopSt (markAtSt st ca p) ca rest (cached_count + 1)
    else cacheLoopSt st ca rest cached_count

/-- Store-level embedding of `LLM._prepare_cached_messages`: outside the
caching path the input list itself is returned; inside it, `list(messages)`
allocates a fresh outer list and each marked message is a fresh dict copy. -/
def prepareCachedMessagesSt (cfg : LLMCfg) (st : Store) (msgsAddr : Nat) :
    Nat × Store :=
  if !cfg.enablePromptCaching || !cfg.supportsPromptCaching
      || (listAt st msgsAddr).isEmpty then
    (msgsAddr, st)
  else if !isAnthropicModel cfg.modelName then (msgsAddr, st)
  else
    let (ca, st1) := allocList st (listAt st msgsAddr)
    let st2 :=
      match (listAt st1 ca).head? with
      | some (.vdict d0) =>
        if dictLookup st1 d0 "role".toList = some (.vstr "system".toList) then
          markAtSt st1 ca 0
        else st1
      | _ => st1
    let total := (listAt st2 ca).length
    if 1 < total then
      (ca, cacheLoopSt st2 ca (pyRange (calculate_cache_interval total) total
        (calculate_cache_interval total)) 0)
    else (ca, st2)

/-- The agent-identity fields of the `LLM` instance used by
`_build_identity_message` (`None` is `Option.none`). -/
structure AgentIdent where
  agentName : Option (List Char)
  agentId : Option (List Char)

/-- The fixed text of the identity message, with the agent name and id
interpolated (`f"{identity_id}"` of Python `None` prints `"None"`). -/
def identityText (agentName : List Char) (agentId : Option (List Char)) : List Char :=
  "\n\n<agent_identity>\n<meta>Internal metadata: do not echo or reference; not part of history or tool calls.</meta>\n<note>You are now assuming the role of this agent. Act strictly as this agent and maintain self-identity for this step. Now go answer the next needed step!</note>\n<agent_name>".toList
    ++ agentName ++ "</agent_name>\n<agent_id>".toList
    ++ (agentId.getD "None".toList) ++ "</agent_id>\n</agent_identity>\n\n".toList

/-- Store-level embedding of `LLM._build_identity_message`: `None` unless the
agent name is set and non-blank, otherwise a fresh user message dict. -/
def buildIdentityMessageSt (ident : AgentIdent) (st : Store) :
    Option Nat × Store :=
  match ident.agentName with
  | none => (none, st)
  | some nm =>
    if nm.isEmpty || (pyStrip nm).isEmpty then (none, st)
    else
      let (d, st1) := allocDict st
        [("role".toList, .vstr "user".toList),
         ("content".toList, .vstr (identityText nm ident.agentId))]
      (some d, st1)

/-- Store-level embedding of `LLM._prepare_messages`.  The external
conversation-history compressor is modelled as a function `compress` of the
history's contents; `compressed_history = list(compress_history(h))` reads the
history list, then `h.clear(); h.extend(compressed_history)` rewrites the
caller's list object in place, and the assembled `messages` list (a fresh
object) is passed to `_prepare_cached_messages`. -/
def prepareMessagesSt (cfg : LLMCfg) (ident : AgentIdent)
    (systemPrompt : List Char) (compress : List PyVal → List PyVal)
    (st : Store) (histAddr : Nat) : Nat × Store :=
  let (sysD, st1) := allocDict st
    [("role".toList, .vstr "system".toList), ("content".toList, .vstr systemPrompt)]
  let (msgsAddr, st2) := allocList st1 [.vdict sysD]
  let st3 :=
    match buildIdentityMessageSt ident st2 with
    | (some idD, stA) => listWrite stA msgsAddr (listAt stA msgsAddr ++ [.vdict idD])
    | (none, stA) => stA
  let compressed := compress (listAt st3 histAddr)
  let st4 := listWrite st3 histAddr compressed
  let st5 := listWrite st4 msgsAddr (listAt st4 msgsAddr ++ compressed)
  prepareCachedMessagesSt cfg st5 msgsAddr

/-- Frame relation between stores: every object existing in `st₀` has the
same contents in `st'` (new objects may have been allocated after them). -/
structure Preserved (st₀ st' : Store) : Prop where
  listsLen : st₀.lists.length ≤ st'.lists.length
  dictsLen : st₀.dicts.length ≤ st'.dicts.length
  listsAt : ∀ b, b < st₀.lists.length → st'.lists[b]? = st₀.lists[b]?
  dictsAt : ∀ b, b < st₀.dicts.length → st'.dicts[b]? = st₀.dicts[b]?

/-! ## Basic facts about the string scanners -/

theorem beginsWith_cons_cons (a b : Char) (p s : List Char) :
    beginsWith (a :: p) (b :: s) = ((a == b) && beginsWith p s) := rfl

theorem beginsWith_append_self : ∀ (p z : List Char), beginsWith p (p ++ z) = true := by
  intro p
  induction p with
  | nil => intro z; rfl
  | cons a p ih => intro z; simp [beginsWith_cons_cons, ih]

theorem beginsWith_eq_append (p s : List Char) (h : beginsWith p s = true) :
    ∃ z, s = p ++ z := by
  induction p generalizing s with
  | nil => exact ⟨s, rfl⟩
  | cons a p ih =>
    cases s with
    | nil => simp [beginsWith] at h
    | cons b s =>
      rw [beginsWith_cons_cons, Bool.and_eq_true, beq_iff_eq] at h
      obtain ⟨z, hz⟩ := ih s h.2
      exact ⟨z, by simp [h.1, hz]⟩

theorem beginsWith_length_le (p s : List Char) (h : beginsWith p s = true) :
    p.length ≤ s.length := by
  obtain ⟨z, hz⟩ := beginsWith_eq_append p s h
  simp [hz]

theorem beginsWith_false_of_short (p s : List Char) (h : s.length < p.length) :
    beginsWith p s = false := by
  cases hb : beginsWith p s with
  | false => rfl
  | true => exact absurd (beginsWith_length_le p s hb) (by omega)

/-- An anchored match only inspects the first `p.length` characters. -/
theorem beginsWith_append_of_le (p u : List Char) (z : List Char)
    (h : p.length ≤ u.length) : beginsWith p (u ++ z) = beginsWith p u := by
  induction p generalizing u with
  | nil => simp [beginsWith]
  | cons a p ih =>
    cases u with
    | nil => simp at h
    | cons b u =>
      simp only [List.cons_append, beginsWith_cons_cons]
      rw [ih u (by simpa using h)]

theorem splitAtFirst_cons (pat : List Char) (c : Char) (rest : List Char) :
    splitAtFirst pat (c :: rest) =
      if beginsWith pat (c :: rest) = true then some ([], (c :: rest).drop pat.length)
      else
        match splitAtFirst pat rest with
        | some (b, a) => some (c :: b, a)
        | none => none := rfl

theorem splitAtFirst_eq_some (pat s b a : List Char)
    (h : splitAtFirst pat s = some (b, a)) : s = b ++ pat ++ a := by
  induction s generalizing b with
  | nil =>
    unfold splitAtFirst at h
    by_cases hb : beginsWith pat [] = true
    · cases pat with
      | nil => simp at h; simp [h.1.symm, h.2.symm]
      | cons c p => simp [beginsWith] at hb
    · simp [hb] at h
  | cons c rest ih =>
    unfold splitAtFirst at h
    by_cases hb : beginsWith pat (c :: rest) = true
    · rw [if_pos hb] at h
      obtain ⟨z, hz⟩ := beginsWith_eq_append pat _ hb
      simp only [Option.some.injEq, Prod.mk.injEq] at h
      obtain ⟨hb0, ha⟩ := h
      subst hb0
      rw [hz, List.drop_left] at ha
      simpa using hz.trans (by rw [ha])
    · rw [if_neg hb] at h
      cases hs : splitAtFirst pat rest with
      | none => simp [hs] at h
      | some pr =>
        obtain ⟨b', a'⟩ := pr
        simp only [hs] at h
        simp only [Option.some.injEq, Prod.mk.injEq] at h
        obtain ⟨hb1, ha1⟩ := h
        subst ha1
        rw [← hb1]
        simpa using ih b' (by simpa using hs)

/-- Minimality: no anchored match strictly before the first occurrence. -/
theorem splitAtFirst_min (pat s b a : List Char)
    (h : splitAtFirst pat s = some (b, a)) :
    ∀ i, i < b.length → beginsWith pat (s.drop i) = false := by
  induction s generalizing b with
  | nil =>
    intro i hi
    unfold splitAtFirst at h
    by_cases hb : beginsWith pat [] = true
    · rw [if_pos hb] at h
      simp only [Option.some.injEq, Prod.mk.injEq] at h
      rw [← h.1] at hi
      simp at hi
    · rw [if_neg hb] at h
      simp at h
  | cons c rest ih =>
    intro i hi
    unfold splitAtFirst at h
    by_cases hb : beginsWith pat (c :: rest) = true
    · rw [if_pos hb] at h
      simp only [Option.some.injEq, Prod.mk.injEq] at h
      rw [← h.1] at hi
      simp at hi
    · rw [if_neg hb] at h
      cases hs : splitAtFirst pat rest with
      | none => simp [hs] at h
      | some pr =>
        obtain ⟨b', a'⟩ := pr
        simp only [hs, Option.some.injEq, Prod.mk.injEq] at h
        cases i with
        | zero => simpa using hb
        | succ j =>
          rw [List.drop_succ_cons]
          refine ih b' (by simp [hs, h.2]) j ?_
          rw [← h.1] at hi
          simp at hi
          omega

theorem splitAtFirst_none_of_no_match (pat s : List Char)
    (h : ∀ i, beginsWith pat (s.drop i) = false) : splitAtFirst pat s = none := by
  induction s with
  | nil =>
    unfold splitAtFirst
    rw [if_neg]
    simpa using h 0
  | cons c rest ih =>
    unfold splitAtFirst
    rw [if_neg (by simpa using h 0)]
    rw [ih fun i => by simpa using h (i + 1)]

theorem splitAtFirst_append (pat s z : List Char)
    (h : ∀ i, i < s.length → beginsWith pat ((s ++ pat ++ z).drop i) = false) :
    splitAtFirst pat (s ++ pat ++ z) = some (s, z) := by
  induction s with
  | nil =>
    simp only [List.nil_append]
    cases hpz : pat ++ z with
    | nil =>
      obtain ⟨hp, hz⟩ := List.append_eq_nil.mp hpz
      subst hp; subst hz
      simp [splitAtFirst, beginsWith]
    | cons c rest =>
      rw [splitAtFirst_cons]
      rw [if_pos (by rw [← hpz]; exact beginsWith_append_self pat z)]
      rw [← hpz, List.drop_left]
  | cons c s ih =>
    simp only [List.cons_append]
    have h0 : beginsWith pat (c :: (s ++ pat ++ z)) = false := by
      simpa using h 0 (by simp)
    rw [splitAtFirst_cons]
    rw [if_neg (by simp only [h0]; exact Bool.false_ne_true)]
    rw [ih fun i hi => by simpa using h (i + 1) (by simpa using Nat.succ_lt_succ hi)]

theorem hasSub_append_self (x pat : List Char) : hasSub pat (x ++ pat) = true := by
  unfold hasSub
  induction x with
  | nil =>
    simp only [List.nil_append]
    cases pat with
    | nil => simp [splitAtFirst, beginsWith]
    | cons c r =>
      rw [splitAtFirst]
      rw [if_pos (by simpa using beginsWith_append_self (c :: r) [])]
      simp
  | cons c rest ih =>
    simp only [List.cons_append]
    rw [splitAtFirst_cons]
    by_cases hb : beginsWith pat (c :: (rest ++ pat)) = true
    · rw [if_pos hb]; simp
    · rw [if_neg hb]
      cases hs : splitAtFirst pat (rest ++ pat) with
      | none => rw [hs] at ih; simp at ih
      | some pr => cases pr; simp [hs]

/-! ## Claim theorems: gateway and retry -/

theorem gatewayStep_ge (delay last now : ℚ) : last + delay ≤ gatewayStep delay last now := by
  have h := le_max_right (0 : ℚ) (delay - (now - last))
  unfold gatewayStep
  linarith

/-- Claim C7: consecutive dispatch starts admitted by the request gateway are
separated by at least `delay_between_requests`: each caller's locked section
computes `wait = max 0 (delay - (now - last))` and reserves
`last := now + wait`, so every dispatch start is at least `delay` after the
previously reserved one, for any sequence of lock-section clock readings. -/
theorem c7_gateway_spacing (delay last : ℚ) (nows : List ℚ) :
    List.Chain' (fun a b => a + delay ≤ b) (dispatchTimes delay last nows) := by
  induction nows generalizing last with
  | nil => simp [dispatchTimes]
  | cons now rest ih =>
    rw [dispatchTimes]
    rw [List.chain'_cons']
    refine ⟨?_, ih _⟩
    intro y hy
    cases rest with
    | nil => simp [dispatchTimes] at hy
    | cons n2 r2 =>
      simp only [dispatchTimes, List.head?_cons, Option.mem_def, Option.some.injEq] at hy
      rw [← hy]
      exact gatewayStep_ge delay _ n2

theorem generateGo_bounds (outcome : Nat → AttemptOutcome) :
    ∀ rem i, (generateGo outcome rem i).1 ≤ i + rem ∧
      ∀ p ∈ (generateGo outcome rem i).2,
        p.2 = max RETRY_MIN (min RETRY_MAX (RETRY_MULTIPLIER * 2 ^ p.1)) ∧
        8 ≤ p.2 ∧ p.2 ≤ 64 := by
  intro rem
  induction rem with
  | zero => intro i; simp [generateGo]
  | succ rem ih =>
    intro i
    cases h : outcome i with
    | ok =>
      simp only [generateGo, h]
      exact ⟨by omega, by intro p hp; simp at hp⟩
    | err retryable =>
      by_cases hr : (!retryable || decide (rem = 0)) = true
      · simp only [generateGo, h]
        rw [if_pos hr]
        exact ⟨by omega, by intro p hp; simp at hp⟩
      · simp only [generateGo, h]
        rw [if_neg hr]
        refine ⟨le_trans (ih (i + 1)).1 (by omega), ?_⟩
        intro p hp
        rcases List.mem_cons.mp hp with hp | hp
        · subst hp
          exact ⟨rfl, le_max_left _ _, max_le (by decide) (min_le_left _ _)⟩
        · exact (ih (i + 1)).2 p hp

/-- Claim C6: the `generate` retry loop makes at most `MAX_RETRIES = 5`
attempts, and the wait slept before the retry following failed attempt `i`
equals `max(RETRY_MIN, min(RETRY_MAX, RETRY_MULTIPLIER * 2^i))`
= `clamp(8 * 2^i, 8, 64)`, which always lies in `[8, 64]`. -/
theorem c6_retry_budget (outcome : Nat → AttemptOutcome) :
    MAX_RETRIES = 5 ∧
    (generateAttempts outcome).1 ≤ 5 ∧
    ∀ p ∈ (generateAttempts outcome).2,
      p.2 = max 8 (min 64 (8 * 2 ^ p.1)) ∧ 8 ≤ p.2 ∧ p.2 ≤ 64 := by
  refine ⟨rfl, ?_, ?_⟩
  · simpa using (generateGo_bounds outcome MAX_RETRIES 0).1
  · exact (generateGo_bounds outcome MAX_RETRIES 0).2

/-- Witness for C6 at the always-retryable outcome: the wait following failed
attempt 1 is 16 seconds, inside the clamp bounds. -/
theorem c6_retry_budget_witness :
    (16 = max 8 (min 64 (8 * 2 ^ 1)) ∧ 8 ≤ 16 ∧ 16 ≤ 64) :=
  (c6_retry_budget (fun _ => .err true)).2.2 (1, 16) (by decide)

/-! ## Repair-pass facts (claims C3, C4, C9) -/

theorem endsWith_eq_append (pat s : List Char) (h : endsWith pat s = true) :
    ∃ z, s = z ++ pat := by
  unfold endsWith at h
  obtain ⟨z, hz⟩ := beginsWith_eq_append _ _ h
  refine ⟨z.reverse, ?_⟩
  have h2 := congrArg List.reverse hz
  simpa using h2

theorem hasSub_cons (pat : List Char) (c : Char) (rest : List Char) :
    hasSub pat (c :: rest) = (beginsWith pat (c :: rest) || hasSub pat rest) := by
  unfold hasSub
  rw [splitAtFirst_cons]
  cases hb : beginsWith pat (c :: rest) with
  | true => simp
  | false =>
    rw [if_neg (by simp)]
    simp only [Bool.false_or]
    cases hs : splitAtFirst pat rest with
    | none => simp
    | some pr => cases pr; simp

theorem countSubF_succ_cons (pat : List Char) (fuel : Nat) (c : Char) (rest : List Char) :
    countSubF pat (fuel + 1) (c :: rest) =
      if beginsWith pat (c :: rest) = true then
        1 + countSubF pat fuel ((c :: rest).drop pat.length)
      else countSubF pat fuel rest := rfl

theorem hasSub_of_countSubF_pos (pat : List Char) :
    ∀ fuel s, countSubF pat fuel s ≠ 0 → hasSub pat s = true := by
  intro fuel
  induction fuel with
  | zero => intro s h; simp [countSubF] at h
  | succ fuel ih =>
    intro s h
    cases s with
    | nil => simp [countSubF] at h
    | cons c rest =>
      rw [countSubF_succ_cons] at h
      rw [hasSub_cons]
      by_cases hb : beginsWith pat (c :: rest) = true
      · simp [hb]
      · rw [if_neg hb] at h
        simp [ih rest h]

/-- The repaired text of a truncated call always carries a closer. -/
theorem fix_adds_closer (t : List Char)
    (hcond : (hasSub openTag t && (countSub openTag t == 1)
      && !(hasSub closeTag t)) = true) :
    hasSub closeTag (fix_incomplete_tool_call t) = true := by
  unfold fix_incomplete_tool_call
  rw [if_pos hcond]
  by_cases hends : endsWith "</".toList (pyRStrip t) = true
  · rw [if_pos hends]
    obtain ⟨z, hz⟩ := endsWith_eq_append _ _ hends
    rw [hz, List.append_assoc]
    exact hasSub_append_self z closeTag
  · rw [if_neg hends]
    have hsplit : pyRStrip t ++ "\n</function>".toList =
        (pyRStrip t ++ ['\n']) ++ closeTag := by
      rw [List.append_assoc]
      rfl
    rw [hsplit]
    exact hasSub_append_self _ closeTag

/-- A text already containing a closer passes through the repair unchanged. -/
theorem fix_of_has_closer (u : List Char) (h : hasSub closeTag u = true) :
    fix_incomplete_tool_call u = u := by
  unfold fix_incomplete_tool_call
  rw [if_neg]
  rw [h]
  simp

/-- Claim C4: the repair pass is idempotent, and consequently decoding a
repaired text equals decoding the text (the decoder starts with the same
repair). -/
theorem c4_repair_idempotent (t : List Char) :
    fix_incomplete_tool_call (fix_incomplete_tool_call t) = fix_incomplete_tool_call t ∧
    parse_tool_invocations (fix_incomplete_tool_call t) = parse_tool_invocations t := by
  have hidem : fix_incomplete_tool_call (fix_incomplete_tool_call t) =
      fix_incomplete_tool_call t := by
    by_cases hcond : (hasSub openTag t && (countSub openTag t == 1)
        && !(hasSub closeTag t)) = true
    · exact fix_of_has_closer _ (fix_adds_closer t hcond)
    · have hfix : fix_incomplete_tool_call t = t := by
        unfold fix_incomplete_tool_call
        rw [if_neg hcond]
      rw [hfix]
      exact hfix
  refine ⟨hidem, ?_⟩
  unfold parse_tool_invocations
  rw [hidem]

/-- Claim C9: decoding never yields an empty invocation list — zero decoded
blocks give the no-result value, both for `parse_tool_invocations` and for
the tool-invocation field of the assembler's final result. -/
theorem c9_no_empty_invocations (t : List Char) :
    parse_tool_invocations t ≠ some [] ∧
    (findFnBlocks (fix_incomplete_tool_call t) = [] → parse_tool_invocations t = none) ∧
    finalToolInvocations t ≠ some [] ∧
    (findFnBlocks (fix_incomplete_tool_call (finalContent t)) = [] →
      finalToolInvocations t = none) := by
  have general : ∀ u, parse_tool_invocations u ≠ some [] ∧
      (findFnBlocks (fix_incomplete_tool_call u) = [] →
        parse_tool_invocations u = none) := by
    intro u
    cases hb : findFnBlocks (fix_incomplete_tool_call u) with
    | nil =>
      constructor
      · simp [parse_tool_invocations, hb]
      · intro; simp [parse_tool_invocations, hb]
    | cons x xs =>
      constructor
      · simp [parse_tool_invocations, hb]
      · intro hcontr; simp at hcontr
  refine ⟨(general t).1, (general t).2, ?_, ?_⟩
  · unfold finalToolInvocations
    cases hp : parse_tool_invocations (finalContent t) with
    | none => simp
    | some l =>
      cases l with
      | nil => simp
      | cons a as => simp
  · intro hb
    unfold finalToolInvocations
    rw [(general (finalContent t)).2 hb]

/-- Witness for C9 at the plain text input: no block decodes, so the decoder
returns the no-result value. -/
theorem c9_no_empty_invocations_witness :
    parse_tool_invocations "hello".toList = none :=
  (c9_no_empty_invocations "hello".toList).2.1 (by decide)

/-- Counterexample for C3: the repair pass right-strips trailing whitespace
before appending, so on an input with a trailing blank the result is not the
input text with `"\n</function>"` appended. -/
theorem c3_counterexample :
    fix_incomplete_tool_call "<function=x> ".toList ≠
      "<function=x> ".toList ++ "\n</function>".toList := by decide

/-- Claim C3 (amended): on a text with exactly one opener and no closer the
repair pass first right-strips trailing whitespace, then appends the
synthesized closer to the stripped text (completing a trailing `"</"`,
otherwise appending `"\n</function>"`); `"<function=x>"` gains
`"\n</function>"`, the partial closer `"</func"` is not recovered, and any
other text is returned unchanged. -/
theorem c3_repair_amended (t : List Char) :
    (countSub openTag t = 1 → hasSub closeTag t = false →
      fix_incomplete_tool_call t =
        (if endsWith "</".toList (pyRStrip t) = true then
          pyRStrip t ++ "function>".toList
         else pyRStrip t ++ "\n</function>".toList)) ∧
    (¬(countSub openTag t = 1 ∧ hasSub closeTag t = false) →
      fix_incomplete_tool_call t = t) ∧
    fix_incomplete_tool_call "<function=x>".toList =
      "<function=x>".toList ++ "\n</function>".toList ∧
    fix_incomplete_tool_call "<function=x> ".toList =
      pyRStrip "<function=x> ".toList ++ "\n</function>".toList ∧
    fix_incomplete_tool_call "<function=x></func".toList =
      "<function=x></func".toList ++ "\n</function>".toList := by
  refine ⟨?_, ?_, by decide, by decide, by decide⟩
  · intro h1 h2
    have hop : hasSub openTag t = true :=
      hasSub_of_countSubF_pos openTag t.length t (by rw [show countSubF openTag t.length t = countSub openTag t from rfl, h1]; omega)
    unfold fix_incomplete_tool_call
    rw [if_pos (by simp [hop, h1, h2])]
  · intro hn
    unfold fix_incomplete_tool_call
    rw [if_neg]
    intro hcond
    rw [Bool.and_eq_true, Bool.and_eq_true] at hcond
    obtain ⟨⟨_, hB⟩, hC⟩ := hcond
    exact hn ⟨by simpa using hB, by simpa using hC⟩

/-- Witness for C3 (amended) at the trailing-blank input: the closer is
appended to the right-stripped text. -/
theorem c3_repair_amended_witness :
    fix_incomplete_tool_call "<function=x> ".toList =
      (if endsWith "</".toList (pyRStrip "<function=x> ".toList) = true then
        pyRStrip "<function=x> ".toList ++ "function>".toList
       else pyRStrip "<function=x> ".toList ++ "\n</function>".toList) :=
  (c3_repair_amended "<function=x> ".toList).1 (by decide) (by decide)

/-! ## Stream-assembler truncation facts (claim C2) -/

theorem dropWhile_append_cons (p : Char → Bool) (l : List Char) (y : Char)
    (r : List Char) (h : p y = false) :
    (l ++ y :: r).dropWhile p = l.dropWhile p ++ y :: r := by
  induction l with
  | nil => simp [List.dropWhile_cons, h]
  | cons c cl ih =>
    by_cases hc : p c = true
    · simp [List.dropWhile_cons, hc, ih]
    · simp [List.dropWhile_cons, hc]

theorem pyRStrip_append (x : List Char) (y : Char) (w : List Char)
    (h : wsChar y = false) : pyRStrip (x ++ y :: w) = x ++ y :: pyRStrip w := by
  unfold pyRStrip
  rw [List.reverse_append, List.reverse_cons, List.append_assoc,
    List.singleton_append]
  rw [dropWhile_append_cons wsChar w.reverse y x.reverse h]
  rw [List.reverse_append, List.reverse_cons]
  simp

theorem pyRStrip_isPre (s : List Char) : pyRStrip s <+: s := by
  refine ⟨(s.reverse.takeWhile wsChar).reverse, ?_⟩
  unfold pyRStrip
  rw [← List.reverse_append, List.takeWhile_append_dropWhile, List.reverse_reverse]

theorem pyRStrip_length_le (s : List Char) : (pyRStrip s).length ≤ s.length :=
  (pyRStrip_isPre s).length_le

theorem closeTag_len : closeTag.length = 11 := rfl

theorem cutAtFirstCloser_of_none (s : List Char)
    (h : splitAtFirst closeTag s = none) : cutAtFirstCloser s = s := by
  unfold cutAtFirstCloser
  rw [h]

theorem cutAtFirstCloser_of_some (s b a : List Char)
    (h : splitAtFirst closeTag s = some (b, a)) :
    cutAtFirstCloser s = b ++ closeTag := by
  unfold cutAtFirstCloser
  rw [h]

/-- The core of claim C2, for an arbitrary cut point `i2`: right-stripping the
text cut at `i2` and then truncating at the first closer stays within the text
up through the first closer, with equality when the closer ends at or before
the cut point. -/
theorem c2_aux (t b a : List Char) (i2 : Nat)
    (hsplit : splitAtFirst closeTag t = some (b, a)) :
    cutAtFirstCloser (pyRStrip (t.take i2)) <+: b ++ closeTag ∧
    (b.length + closeTag.length ≤ i2 →
      cutAtFirstCloser (pyRStrip (t.take i2)) = b ++ closeTag) := by
  have hteq : t = b ++ closeTag ++ a := splitAtFirst_eq_some _ _ _ _ hsplit
  have hmin := splitAtFirst_min _ _ _ _ hsplit
  have h11 := closeTag_len
  by_cases hcase : b.length + closeTag.length ≤ i2
  · -- the first closer is fully before the cut point: exact equality
    have hlen : (b ++ closeTag).length ≤ i2 := by
      rw [List.length_append]; omega
    have htk : t.take i2 = (b ++ closeTag) ++ a.take (i2 - (b ++ closeTag).length) := by
      rw [hteq, List.take_append_eq_append_take, List.take_of_length_le hlen]
    have hdecomp : closeTag = "</function".toList ++ ['>'] := rfl
    have hshape : ∀ w : List Char,
        (b ++ closeTag) ++ w = (b ++ "</function".toList) ++ '>' :: w := by
      intro w
      rw [hdecomp]
      simp [List.append_assoc]
    have hrs : pyRStrip (t.take i2) =
        (b ++ closeTag) ++ pyRStrip (a.take (i2 - (b ++ closeTag).length)) := by
      rw [htk, hshape, pyRStrip_append _ '>' _ (by decide), ← hshape]
    have hnooc : ∀ i, i < b.length →
        beginsWith closeTag
          (((b ++ closeTag) ++ pyRStrip (a.take (i2 - (b ++ closeTag).length))).drop i)
          = false := by
      intro i hi
      have hile : i ≤ (b ++ closeTag).length := by
        rw [List.length_append]; omega
      have hlen2 : closeTag.length ≤ ((b ++ closeTag).drop i).length := by
        rw [List.length_drop, List.length_append]
        omega
      rw [List.drop_append_of_le_length hile]
      rw [beginsWith_append_of_le _ _ _ hlen2]
      have hm := hmin i hi
      rw [hteq, List.drop_append_of_le_length hile,
        beginsWith_append_of_le _ _ _ hlen2] at hm
      exact hm
    have hcut : splitAtFirst closeTag
        ((b ++ closeTag) ++ pyRStrip (a.take (i2 - (b ++ closeTag).length))) =
        some (b, pyRStrip (a.take (i2 - (b ++ closeTag).length))) :=
      splitAtFirst_append closeTag b _ hnooc
    have heq : cutAtFirstCloser (pyRStrip (t.take i2)) = b ++ closeTag := by
      rw [hrs, cutAtFirstCloser_of_some _ _ _ hcut]
    exact ⟨heq ▸ List.prefix_refl _, fun _ => heq⟩
  · -- the cut point is inside or before the first closer: strict prefix
    have hlen_t1 : (pyRStrip (t.take i2)).length ≤ i2 :=
      le_trans (pyRStrip_length_le _) (by rw [List.length_take]; omega)
    have hnomatch : ∀ i,
        beginsWith closeTag ((pyRStrip (t.take i2)).drop i) = false := by
      intro i
      by_cases hlong : i + closeTag.length ≤ (pyRStrip (t.take i2)).length
      · have hib : i < b.length := by omega
        obtain ⟨w, hw⟩ := (pyRStrip_isPre (t.take i2)).trans (List.take_prefix i2 t)
        have hd : t.drop i = (pyRStrip (t.take i2)).drop i ++ w := by
          conv_lhs => rw [← hw]
          rw [List.drop_append_of_le_length (by omega)]
        have hlen2 : closeTag.length ≤ ((pyRStrip (t.take i2)).drop i).length := by
          rw [List.length_drop]; omega
        have hm := hmin i hib
        rw [hd, beginsWith_append_of_le _ _ _ hlen2] at hm
        exact hm
      · refine beginsWith_false_of_short _ _ ?_
        rw [List.length_drop]
        omega
    have hnone : splitAtFirst closeTag (pyRStrip (t.take i2)) = none :=
      splitAtFirst_none_of_no_match _ _ hnomatch
    have hpre : cutAtFirstCloser (pyRStrip (t.take i2)) <+: b ++ closeTag := by
      rw [cutAtFirstCloser_of_none _ hnone]
      refine (pyRStrip_isPre (t.take i2)).trans ?_
      have htke : t.take i2 = (b ++ closeTag).take i2 := by
        rw [hteq, List.take_append_of_le_length (by rw [List.length_append]; omega)]
      rw [htke]
      exact List.take_prefix _ _
    exact ⟨hpre, fun hcon => absurd hcon hcase⟩

/-- Claim C2: with two or more `"<function="` openers in the accumulated text
(and a `"</function>"` closer present, splitting the text as
`b ++ closeTag ++ a` at the first closer), the assembler's final content never
extends past the first closer; when the first closer lies entirely before the
second opener, the final content is exactly the text up through the first
closer. -/
theorem c2_truncation (t b a : List Char)
    (hsplit : splitAtFirst closeTag t = some (b, a))
    (h2 : 2 ≤ (litFindStarts openTag t).length) :
    finalContent t <+: b ++ closeTag ∧
    (b.length + closeTag.length ≤ (litFindStarts openTag t).getD 1 0 →
      finalContent t = b ++ closeTag) := by
  have htr : truncate_to_first_function t =
      pyRStrip (t.take ((litFindStarts openTag t).getD 1 0)) := by
    cases ht : t with
    | nil => rw [ht] at h2; simp [litFindStarts, litFindStartsF] at h2
    | cons c r =>
      rw [← ht]
      unfold truncate_to_first_function
      rw [if_neg (by rw [ht]; simp)]
      rw [if_pos h2]
  have hfc : finalContent t =
      cutAtFirstCloser (pyRStrip (t.take ((litFindStarts openTag t).getD 1 0))) := by
    unfold finalContent
    rw [htr]
  rw [hfc]
  exact c2_aux t b a _ hsplit

/-- Witness for C2 at a two-block stream where the first closer precedes the
second opener: the final content is exactly the first block. -/
theorem c2_truncation_witness :
    finalContent "<function=a></function>x<function=b></function>".toList =
      "<function=a>".toList ++ closeTag :=
  (c2_truncation "<function=a></function>x<function=b></function>".toList
    "<function=a>".toList "x<function=b></function>".toList
    (by decide) (by decide)).2 (by decide)

/-! ## Cache placement facts (claim C5) -/

theorem cacheIntervalLoopF_spec (n : Nat) :
    ∀ fuel interval, 10 ∣ interval → 0 < interval →
      n < interval + 10 * fuel →
      (∀ m, 10 ≤ m → 10 ∣ m → m < interval → 3 < n / m) →
      (10 ∣ cacheIntervalLoopF n fuel interval ∧
       0 < cacheIntervalLoopF n fuel interval ∧
       n / cacheIntervalLoopF n fuel interval ≤ 3 ∧
       ∀ m, 0 < m → 10 ∣ m → n / m ≤ 3 → cacheIntervalLoopF n fuel interval ≤ m) := by
  intro fuel
  induction fuel with
  | zero =>
    intro interval hd hp hb hinv
    refine ⟨hd, hp, ?_, ?_⟩
    · rw [cacheIntervalLoopF, Nat.div_eq_of_lt (by omega)]
      omega
    · rw [cacheIntervalLoopF]
      intro m hm0 hmd hm3
      by_contra hcon
      have h10m : 10 ≤ m := Nat.le_of_dvd hm0 hmd
      exact absurd hm3 (by have := hinv m h10m hmd (by omega); omega)
  | succ fuel ih =>
    intro interval hd hp hb hinv
    rw [cacheIntervalLoopF]
    by_cases hgt : n / interval > 3
    · rw [if_pos hgt]
      refine ih (interval + 10) (Nat.dvd_add hd (dvd_refl 10)) (by omega) (by omega) ?_
      intro m h10 hmd hlt
      rcases lt_or_ge m interval with hmi | hmi
      · exact hinv m h10 hmd hmi
      · have hmeq : m = interval := by
          obtain ⟨k, hk⟩ := hmd
          obtain ⟨j, hj⟩ := hd
          omega
        rw [hmeq]
        exact hgt
    · rw [if_neg hgt]
      refine ⟨hd, hp, by omega, ?_⟩
      intro m hm0 hmd hm3
      by_contra hcon
      have h10m : 10 ≤ m := Nat.le_of_dvd hm0 hmd
      exact absurd hm3 (by have := hinv m h10m hmd (by omega); omega)

theorem calculate_cache_interval_spec (total : Nat) :
    10 ∣ calculate_cache_interval total ∧ 0 < calculate_cache_interval total ∧
    (total - 1) / calculate_cache_interval total ≤ 3 ∧
    ∀ m, 0 < m → 10 ∣ m → (total - 1) / m ≤ 3 →
      calculate_cache_interval total ≤ m := by
  unfold calculate_cache_interval
  by_cases ht : total ≤ 1
  · rw [if_pos ht]
    refine ⟨⟨1, rfl⟩, by norm_num, ?_, ?_⟩
    · have h0 : total - 1 = 0 := by omega
      simp [h0]
    · intro m hm0 hmd _
      exact Nat.le_of_dvd hm0 hmd
  · rw [if_neg ht]
    exact cacheIntervalLoopF_spec (total - 1) total 10 ⟨1, rfl⟩ (by norm_num)
      (by omega) (fun m h10 _ hlt => absurd h10 (by omega))

theorem pyRange_count (i total : Nat) (hi : 0 < i) :
    pyRange i total i = List.range' i ((total - 1) / i) i := by
  unfold pyRange
  rcases le_or_lt total i with h | h
  · rw [Nat.sub_eq_zero_of_le h]
    rw [Nat.div_eq_of_lt (by omega), Nat.div_eq_of_lt (by omega)]
  · congr 1
    congr 1
    omega

theorem cacheLoop_length :
    ∀ ps (msgs : List Msg) count, (cacheLoop msgs ps count).length = msgs.length := by
  intro ps
  induction ps with
  | nil => intro msgs count; rw [cacheLoop]
  | cons p rest ih =>
    intro msgs count
    rw [cacheLoop]
    by_cases hc : 3 ≤ count
    · rw [if_pos hc]
    · rw [if_neg hc]
      by_cases hp : p < msgs.length
      · rw [if_pos hp, ih]
        simp
      · rw [if_neg hp, ih]

theorem cacheLoop_getElem :
    ∀ ps (msgs : List Msg) count, ps.Nodup → (∀ p ∈ ps, p < msgs.length) →
      count + ps.length ≤ 3 →
      ∀ j, (cacheLoop msgs ps count)[j]? =
        if j ∈ ps then msgs[j]?.map markMsg else msgs[j]? := by
  intro ps
  induction ps with
  | nil => intro msgs count _ _ _ j; simp [cacheLoop]
  | cons p rest ih =>
    intro msgs count hnd hlt hcnt j
    have hpm : p < msgs.length := hlt p (by simp)
    rw [cacheLoop]
    rw [if_neg (by simp at hcnt; omega)]
    rw [if_pos hpm]
    rw [ih (msgs.set p (markMsg (msgs.getD p default))) (count + 1)
      (List.nodup_cons.mp hnd).2
      (fun q hq => by rw [List.length_set]; exact hlt q (by simp [hq]))
      (by simp at hcnt ⊢; omega) j]
    by_cases hjp : j = p
    · subst hjp
      have hjnr : j ∉ rest := (List.nodup_cons.mp hnd).1
      rw [if_neg hjnr, if_pos (by simp)]
      rw [List.getElem?_set_self hpm]
      rw [List.getElem?_eq_getElem hpm]
      rw [List.getD_eq_getElem msgs default hpm]
      rfl
    · by_cases hjr : j ∈ rest
      · rw [if_pos hjr, if_pos (by simp [hjr])]
        rw [List.getElem?_set_ne (fun hc => hjp hc.symm)]
      · rw [if_neg hjr, if_neg (by simp [hjp, hjr])]
        rw [List.getElem?_set_ne (fun hc => hjp hc.symm)]

theorem isMarked_markMsg_of_str (m : Msg) (h : isStrContent m = true) :
    isMarked (markMsg m) = true := by
  unfold isStrContent at h
  unfold isMarked markMsg addCacheControl
  cases hm : m.content with
  | strC s => simp
  | partsC l => rw [hm] at h; simp at h

theorem isMarked_of_str (m : Msg) (h : isStrContent m = true) :
    isMarked m = false := by
  unfold isStrContent at h
  unfold isMarked
  cases hm : m.content with
  | strC s => rfl
  | partsC l => rw [hm] at h; simp at h

/-- Counterexample for C5: the claim's preconditions hold (caching enabled
and supported, Anthropic model, non-empty list with a system message first,
eleven messages so the interval is 10 and position 10 is inside the list),
yet the message at position 10 — whose content is a parts list ending in an
image part — is not marked, because attaching a cache marker to such content
is a no-op. -/
theorem c5_counterexample :
    calculate_cache_interval 11 = 10 ∧
    isAnthropicModel "claude".toList = true ∧
    isMarked ((prepare_cached_messages ⟨true, true, "claude".toList⟩
      (⟨"system".toList, Content.strC []⟩ ::
        (List.replicate 9 ⟨"user".toList, Content.strC []⟩ ++
          [⟨"user".toList, Content.partsC [⟨"image_url".toList, [], false⟩]⟩]))).getD
        10 default) = false := by decide

/-- Claim C5 (amended): when caching applies (enabled, supported,
Anthropic-family model, non-empty list, system message first) and every
message content is a plain string (so that attaching a cache marker is not a
no-op), the prepared list keeps its length; the interval is the smallest
positive multiple of 10 with `(count - 1) / interval ≤ 3`; exactly the system
message and the messages at positions `interval`, `2*interval`, `3*interval`
inside the list are marked; and at most 4 messages are marked. -/
theorem c5_cache_placement (cfg : LLMCfg) (msgs : List Msg)
    (h1 : cfg.enablePromptCaching = true)
    (h2 : cfg.supportsPromptCaching = true)
    (h3 : isAnthropicModel cfg.modelName = true)
    (h4 : msgs ≠ [])
    (h5 : (msgs.headD default).role = "system".toList)
    (h6 : ∀ m ∈ msgs, isStrContent m = true) :
    (prepare_cached_messages cfg msgs).length = msgs.length ∧
    10 ∣ calculate_cache_interval msgs.length ∧
    (msgs.length - 1) / calculate_cache_interval msgs.length ≤ 3 ∧
    (∀ m, 0 < m → 10 ∣ m → (msgs.length - 1) / m ≤ 3 →
      calculate_cache_interval msgs.length ≤ m) ∧
    (∀ j, j < msgs.length →
      (isMarked ((prepare_cached_messages cfg msgs).getD j default) = true ↔
        (j = 0 ∨ j = calculate_cache_interval msgs.length ∨
         j = 2 * calculate_cache_interval msgs.length ∨
         j = 3 * calculate_cache_interval msgs.length))) ∧
    ((List.range (prepare_cached_messages cfg msgs).length).filter
      (fun j => isMarked ((prepare_cached_messages cfg msgs).getD j default))).length
      ≤ 4 := by
  obtain ⟨m0, rest, rfl⟩ : ∃ m0 rest, msgs = m0 :: rest := by
    cases msgs with
    | nil => exact absurd rfl h4
    | cons x xs => exact ⟨x, xs, rfl⟩
  have h5' : m0.role = "system".toList := by simpa using h5
  obtain ⟨hdvd, hpos, hdiv3, hmin⟩ := calculate_cache_interval_spec (m0 :: rest).length
  have hout : prepare_cached_messages cfg (m0 :: rest) =
      cacheLoop ((m0 :: rest).set 0 (markMsg m0))
        (pyRange (calculate_cache_interval (m0 :: rest).length) (m0 :: rest).length
          (calculate_cache_interval (m0 :: rest).length)) 0 := by
    unfold prepare_cached_messages
    rw [if_neg (by simp [h1, h2])]
    rw [if_neg (by simp [h3])]
    simp only [List.head?_cons]
    rw [if_pos h5']
    simp only [List.length_set]
    by_cases h1lt : 1 < (m0 :: rest).length
    · rw [if_pos h1lt]
    · rw [if_neg h1lt]
      have hr : rest = [] := by
        simp only [List.length_cons] at h1lt
        exact List.eq_nil_of_length_eq_zero (by omega)
      subst hr
      rw [pyRange_count _ _ hpos]
      simp [cacheLoop]
  have hmem : ∀ j, (j ∈ pyRange (calculate_cache_interval (m0 :: rest).length)
      (m0 :: rest).length (calculate_cache_interval (m0 :: rest).length) ↔
      ∃ k, k < ((m0 :: rest).length - 1) / calculate_cache_interval (m0 :: rest).length ∧
        j = calculate_cache_interval (m0 :: rest).length +
          calculate_cache_interval (m0 :: rest).length * k) := by
    intro j
    rw [pyRange_count _ _ hpos]
    simp [List.mem_range']
  have hps_lt : ∀ p ∈ pyRange (calculate_cache_interval (m0 :: rest).length)
      (m0 :: rest).length (calculate_cache_interval (m0 :: rest).length),
      p < (m0 :: rest).length := by
    intro p hp
    rw [hmem p] at hp
    obtain ⟨k, hk, rfl⟩ := hp
    have hmul : calculate_cache_interval (m0 :: rest).length +
        calculate_cache_interval (m0 :: rest).length * k ≤
        calculate_cache_interval (m0 :: rest).length *
          (((m0 :: rest).length - 1) / calculate_cache_interval (m0 :: rest).length) := by
      have hk1 : k + 1 ≤ ((m0 :: rest).length - 1) /
          calculate_cache_interval (m0 :: rest).length := hk
      calc calculate_cache_interval (m0 :: rest).length +
            calculate_cache_interval (m0 :: rest).length * k
          = calculate_cache_interval (m0 :: rest).length * (k + 1) := by ring
        _ ≤ _ := Nat.mul_le_mul_left _ hk1
    have hdle : calculate_cache_interval (m0 :: rest).length *
        (((m0 :: rest).length - 1) / calculate_cache_interval (m0 :: rest).length) ≤
        (m0 :: rest).length - 1 := by
      rw [Nat.mul_comm]
      exact Nat.div_mul_le_self _ _
    have hlen1 : 1 ≤ (m0 :: rest).length := by simp
    omega
  have hnodup : (pyRange (calculate_cache_interval (m0 :: rest).length)
      (m0 :: rest).length (calculate_cache_interval (m0 :: rest).length)).Nodup := by
    rw [pyRange_count _ _ hpos]
    exact List.nodup_range' _ _ _ hpos
  have hlen_ps : (pyRange (calculate_cache_interval (m0 :: rest).length)
      (m0 :: rest).length (calculate_cache_interval (m0 :: rest).length)).length =
      ((m0 :: rest).length - 1) / calculate_cache_interval (m0 :: rest).length := by
    rw [pyRange_count _ _ hpos]
    simp
  have hchar : ∀ j, (prepare_cached_messages cfg (m0 :: rest))[j]? =
      if j ∈ pyRange (calculate_cache_interval (m0 :: rest).length)
          (m0 :: rest).length (calculate_cache_interval (m0 :: rest).length) then
        (((m0 :: rest).set 0 (markMsg m0))[j]?).map markMsg
      else ((m0 :: rest).set 0 (markMsg m0))[j]? := by
    intro j
    rw [hout]
    exact cacheLoop_getElem _ _ 0 hnodup
      (fun q hq => by rw [List.length_set]; exact hps_lt q hq)
      (by rw [hlen_ps]; omega) j
  have hlen_out : (prepare_cached_messages cfg (m0 :: rest)).length =
      (m0 :: rest).length := by
    rw [hout, cacheLoop_length]
    simp
  have hiff : ∀ j, j < (m0 :: rest).length →
      (isMarked ((prepare_cached_messages cfg (m0 :: rest)).getD j default) = true ↔
        (j = 0 ∨ j = calculate_cache_interval (m0 :: rest).length ∨
         j = 2 * calculate_cache_interval (m0 :: rest).length ∨
         j = 3 * calculate_cache_interval (m0 :: rest).length)) := by
    intro j hj
    have hjout : j < (prepare_cached_messages cfg (m0 :: rest)).length := by
      rw [hlen_out]; exact hj
    rw [List.getD_eq_getElem?_getD, hchar j]
    by_cases hj0 : j = 0
    · subst hj0
      have h0np : (0 : Nat) ∉ pyRange (calculate_cache_interval (m0 :: rest).length)
          (m0 :: rest).length (calculate_cache_interval (m0 :: rest).length) := by
        rw [hmem 0]
        rintro ⟨k, hk, hk0⟩
        have hka : 0 ≤ calculate_cache_interval (m0 :: rest).length * k := Nat.zero_le _
        omega
      rw [if_neg h0np]
      rw [List.getElem?_set_self (by simp)]
      simp only [Option.getD_some]
      constructor
      · intro _; simp
      · intro _; exact isMarked_markMsg_of_str m0 (h6 m0 (by simp))
    · have hbase : ((m0 :: rest).set 0 (markMsg m0))[j]? = (m0 :: rest)[j]? :=
        List.getElem?_set_ne fun hc => hj0 hc.symm
      obtain ⟨mj, hsome⟩ : ∃ mj, (m0 :: rest)[j]? = some mj :=
        ⟨_, List.getElem?_eq_getElem hj⟩
      have hstr : isStrContent mj = true := h6 _ (List.getElem?_mem hsome)
      by_cases hjin : j ∈ pyRange (calculate_cache_interval (m0 :: rest).length)
          (m0 :: rest).length (calculate_cache_interval (m0 :: rest).length)
      · rw [if_pos hjin, hbase, hsome]
        rw [show (some mj).map markMsg = some (markMsg mj) from rfl]
        simp only [Option.getD_some]
        constructor
        · intro _
          rw [hmem j] at hjin
          obtain ⟨k, hk, rfl⟩ := hjin
          have hk3 : k < 3 := by omega
          interval_cases k
          · exact Or.inr (Or.inl (by ring))
          · exact Or.inr (Or.inr (Or.inl (by ring)))
          · exact Or.inr (Or.inr (Or.inr (by ring)))
        · intro _
          exact isMarked_markMsg_of_str _ hstr
      · rw [if_neg hjin, hbase, hsome]
        simp only [Option.getD_some]
        rw [isMarked_of_str _ hstr]
        constructor
        · intro hfalse; exact absurd hfalse Bool.false_ne_true
        · intro hor
          exfalso
          apply hjin
          rw [hmem j]
          have hle : ∀ c : Nat, 0 < c → j = c * calculate_cache_interval (m0 :: rest).length →
              c ≤ ((m0 :: rest).length - 1) / calculate_cache_interval (m0 :: rest).length := by
            intro c hc hjc
            rw [Nat.le_div_iff_mul_le hpos]
            have hlen1 : 1 ≤ (m0 :: rest).length := by simp
            omega
          rcases hor with hj0' | hjc | hjc | hjc
          · exact absurd hj0' hj0
          · refine ⟨0, ?_, by omega⟩
            have := hle 1 (by omega) (by omega)
            omega
          · refine ⟨1, ?_, by ring_nf; omega⟩
            have := hle 2 (by omega) (by omega)
            omega
          · refine ⟨2, ?_, by ring_nf; omega⟩
            have := hle 3 (by omega) (by omega)
            omega
  refine ⟨hlen_out, hdvd, hdiv3, hmin, hiff, ?_⟩
  have hsubs : ((List.range (prepare_cached_messages cfg (m0 :: rest)).length).filter
      (fun j => isMarked ((prepare_cached_messages cfg (m0 :: rest)).getD j default))) ⊆
      [0, calculate_cache_interval (m0 :: rest).length,
       2 * calculate_cache_interval (m0 :: rest).length,
       3 * calculate_cache_interval (m0 :: rest).length] := by
    intro x hx
    rw [List.mem_filter, List.mem_range] at hx
    obtain ⟨hxlt, hxm⟩ := hx
    have hxlt' : x < (m0 :: rest).length := by rw [← hlen_out]; exact hxlt
    have hor := (hiff x hxlt').mp hxm
    rcases hor with h | h | h | h <;> simp [h]
  have hnd : ((List.range (prepare_cached_messages cfg (m0 :: rest)).length).filter
      (fun j => isMarked ((prepare_cached_messages cfg (m0 :: rest)).getD j default))).Nodup :=
    (List.nodup_range _).filter _
  have hsp := List.subperm_of_subset hnd hsubs
  have hle4 := List.Subperm.length_le hsp
  simpa using hle4

/-- Witness for C5 at one system message plus twenty string messages on an
Anthropic model: the message at position 10 (the computed interval) is
marked. -/
theorem c5_cache_placement_witness :
    isMarked ((prepare_cached_messages ⟨true, true, "claude".toList⟩
      (⟨"system".toList, Content.strC []⟩ ::
        List.replicate 20 ⟨"user".toList, Content.strC []⟩)).getD 10 default) = true :=
  ((c5_cache_placement ⟨true, true, "claude".toList⟩
      (⟨"system".toList, Content.strC []⟩ ::
        List.replicate 20 ⟨"user".toList, Content.strC []⟩)
      rfl rfl (by decide) (by decide) (by decide) (by decide)).2.2.2.2.1
    10 (by decide)).mpr (Or.inr (Or.inl (by decide)))

/-! ## Round-trip facts (claim C1) -/

theorem takeWhile_name (name : List Char) (h : '>' ∉ name) :
    ∀ w : List Char, (name ++ '>' :: w).takeWhile (fun c => c ≠ '>') = name := by
  induction name with
  | nil => intro w; simp [List.takeWhile_cons]
  | cons c cs ih =>
    intro w
    have hc : c ≠ '>' := fun hc => h (by simp [hc])
    simp only [List.cons_append, List.takeWhile_cons]
    rw [if_pos (by simpa using hc)]
    rw [ih (fun hm => h (by simp [hm])) w]

theorem dropWhile_name (name : List Char) (h : '>' ∉ name) :
    ∀ w : List Char, (name ++ '>' :: w).dropWhile (fun c => c ≠ '>') = '>' :: w := by
  induction name with
  | nil => intro w; simp [List.dropWhile_cons]
  | cons c cs ih =>
    intro w
    have hc : c ≠ '>' := fun hc => h (by simp [hc])
    simp only [List.cons_append, List.dropWhile_cons]
    rw [if_pos (by simpa using hc)]
    exact ih (fun hm => h (by simp [hm])) w

theorem beginsWith_take_false (pat : List Char) :
    ∀ (u t : List Char), beginsWith (pat.take u.length) u = false →
      beginsWith pat (u ++ t) = false := by
  induction pat with
  | nil => intro u t h; simp [beginsWith] at h
  | cons a p ih =>
    intro u t h
    cases u with
    | nil => simp [beginsWith] at h
    | cons b u' =>
      simp only [List.length_cons, List.take_succ_cons, beginsWith_cons_cons] at h
      simp only [List.cons_append, beginsWith_cons_cons]
      cases hab : (a == b) with
      | false => simp
      | true =>
        rw [hab] at h
        simp only [Bool.true_and] at h ⊢
        exact ih u' t h

/-- A literal segment whose available characters already refute every anchored
match admits no match start, for any continuation. -/
theorem noOccLit (pat lit : List Char)
    (h : ∀ i, i < lit.length → beginsWith (pat.take (lit.length - i)) (lit.drop i) = false) :
    ∀ (t : List Char) (i : Nat), i < lit.length →
      beginsWith pat ((lit ++ t).drop i) = false := by
  intro t i hi
  rw [List.drop_append_of_le_length (by omega)]
  have hlen : (lit.drop i).length = lit.length - i := by simp
  refine beginsWith_take_false pat (lit.drop i) t ?_
  rw [hlen]
  exact h i hi

/-- A segment free of the pattern's first character admits no match start. -/
theorem noOccHead (p' : List Char) :
    ∀ (s : List Char), '<' ∉ s → ∀ (t : List Char) (i : Nat), i < s.length →
      beginsWith ('<' :: p') ((s ++ t).drop i) = false := by
  intro s
  induction s with
  | nil => intro _ t i hi; simp at hi
  | cons c cs ih =>
    intro hmem t i hi
    cases i with
    | zero =>
      simp only [List.cons_append, List.drop_zero]
      rw [beginsWith_cons_cons]
      have hc : c ≠ '<' := fun hc => hmem (by simp [hc])
      have hbeq : ('<' == c) = false := by
        rw [beq_eq_false_iff_ne]
        exact fun hcc => hc hcc.symm
      rw [hbeq]
      simp
    | succ i' =>
      simp only [List.cons_append, List.drop_succ_cons]
      exact ih (fun hm => hmem (by simp [hm])) t i' (by simpa using hi)

/-- Match starts are absent from a concatenation when absent from both parts. -/
theorem noOccAppendT (pat a b : List Char)
    (ha : ∀ (t : List Char) (i : Nat), i < a.length →
      beginsWith pat ((a ++ t).drop i) = false)
    (hb : ∀ (t : List Char) (i : Nat), i < b.length →
      beginsWith pat ((b ++ t).drop i) = false) :
    ∀ (t : List Char) (i : Nat), i < (a ++ b).length →
      beginsWith pat ((a ++ b ++ t).drop i) = false := by
  intro t i hi
  rw [List.append_assoc]
  by_cases hia : i < a.length
  · exact ha (b ++ t) i hia
  · rw [List.length_append] at hi
    have hdrop : (a ++ (b ++ t)).drop i = (b ++ t).drop (i - a.length) := by
      have hieq : i = a.length + (i - a.length) := by omega
      conv_lhs => rw [hieq]
      rw [List.drop_append]
    rw [hdrop]
    exact hb t (i - a.length) (by omega)

theorem closeTag_cons : closeTag = '<' :: "/function>".toList := rfl

theorem paramCloseTag_cons : paramCloseTag = '<' :: "/parameter>".toList := rfl

/-- No `"</function>"` match can start inside the parameter blob of an
encoded call whose keys and values are free of `'<'`. -/
theorem blob_noOcc (args : List (List Char × List Char))
    (hk : ∀ kv ∈ args, '<' ∉ kv.1) (hv : ∀ kv ∈ args, '<' ∉ kv.2) :
    ∀ (t : List Char) (i : Nat), i < (paramsBlob args).length →
      beginsWith closeTag ((paramsBlob args ++ t).drop i) = false := by
  induction args with
  | nil => intro t i hi; simp [paramsBlob] at hi
  | cons kv rest ih =>
    have hshape : paramsBlob (kv :: rest) =
        paramOpenTag ++ kv.1 ++ ['>'] ++ kv.2 ++ paramCloseTag ++ ['\n'] ++
          paramsBlob rest := rfl
    rw [hshape]
    have h_po : ∀ (t : List Char) (i : Nat), i < paramOpenTag.length →
        beginsWith closeTag ((paramOpenTag ++ t).drop i) = false :=
      noOccLit closeTag paramOpenTag (by decide)
    have h_pc : ∀ (t : List Char) (i : Nat), i < paramCloseTag.length →
        beginsWith closeTag ((paramCloseTag ++ t).drop i) = false :=
      noOccLit closeTag paramCloseTag (by decide)
    have h_k : ∀ (t : List Char) (i : Nat), i < kv.1.length →
        beginsWith closeTag ((kv.1 ++ t).drop i) = false := by
      rw [closeTag_cons]
      exact noOccHead _ kv.1 (hk kv (by simp))
    have h_v : ∀ (t : List Char) (i : Nat), i < kv.2.length →
        beginsWith closeTag ((kv.2 ++ t).drop i) = false := by
      rw [closeTag_cons]
      exact noOccHead _ kv.2 (hv kv (by simp))
    have h_gt : ∀ (t : List Char) (i : Nat), i < (['>'] : List Char).length →
        beginsWith closeTag ((['>'] ++ t).drop i) = false := by
      rw [closeTag_cons]
      exact noOccHead _ ['>'] (by decide)
    have h_nl : ∀ (t : List Char) (i : Nat), i < (['\n'] : List Char).length →
        beginsWith closeTag ((['\n'] ++ t).drop i) = false := by
      rw [closeTag_cons]
      exact noOccHead _ ['\n'] (by decide)
    have ih' := ih (fun q hq => hk q (by simp [hq])) (fun q hq => hv q (by simp [hq]))
    exact noOccAppendT closeTag
      (paramOpenTag ++ kv.1 ++ ['>'] ++ kv.2 ++ paramCloseTag ++ ['\n'])
      (paramsBlob rest)
      (noOccAppendT closeTag _ _
        (noOccAppendT closeTag _ _
          (noOccAppendT closeTag _ _
            (noOccAppendT closeTag _ _
              (noOccAppendT closeTag _ _ h_po h_k) h_gt) h_v) h_pc) h_nl)
      ih'

theorem matchParamAt_shape (k v rest' : List Char)
    (hk : k ≠ []) (hkgt : '>' ∉ k) (hvlt : '<' ∉ v) :
    matchParamAt (paramOpenTag ++ (k ++ ('>' :: (v ++ (paramCloseTag ++ rest'))))) =
      some ((k, v), rest') := by
  unfold matchParamAt
  rw [if_pos (beginsWith_append_self paramOpenTag _)]
  simp only [List.drop_left, takeWhile_name k hkgt, dropWhile_name k hkgt]
  rw [if_neg (by simpa using hk)]
  have hsp : splitAtFirst paramCloseTag (v ++ (paramCloseTag ++ rest')) =
      some (v, rest') := by
    rw [← List.append_assoc]
    refine splitAtFirst_append paramCloseTag v rest' ?_
    intro i hi
    rw [List.append_assoc, paramCloseTag_cons]
    exact noOccHead _ v hvlt _ i hi
  rw [hsp]

theorem matchFnAt_shape (tool_name body : List Char)
    (hname : tool_name ≠ []) (hgt : '>' ∉ tool_name)
    (hno : ∀ i, i < body.length →
      beginsWith closeTag ((body ++ closeTag).drop i) = false) :
    matchFnAt (openTag ++ (tool_name ++ ('>' :: '\n' :: (body ++ closeTag)))) =
      some ((tool_name, body), []) := by
  unfold matchFnAt
  rw [if_pos (beginsWith_append_self openTag _)]
  simp only [List.drop_left, takeWhile_name tool_name hgt, dropWhile_name tool_name hgt]
  rw [if_neg (by simpa using hname)]
  simp only [List.head?_cons, List.tail_cons]
  simp only [if_true]
  have hsp : splitAtFirst closeTag (body ++ closeTag) = some (body, []) := by
    have hgen := splitAtFirst_append closeTag body []
      (by intro i hi; rw [List.append_nil]; exact hno i hi)
    rw [List.append_nil] at hgen
    exact hgen
  rw [hsp]

theorem matchParamAt_none_of_head (c : Char) (hc : c ≠ '<') (cs : List Char) :
    matchParamAt (c :: cs) = none := by
  have hbeq : ('<' == c) = false := by
    rw [beq_eq_false_iff_ne]
    exact fun hcc => hc hcc.symm
  unfold matchParamAt
  rw [if_neg]
  rw [show paramOpenTag = '<' :: "parameter=".toList from rfl, beginsWith_cons_cons,
    hbeq]
  simp

theorem findParamBlocksF_nil (fuel : Nat) : findParamBlocksF fuel [] = [] := by
  cases fuel <;> rfl

theorem findParamBlocksF_cons (fuel : Nat) (c : Char) (cs : List Char) :
    findParamBlocksF (fuel + 1) (c :: cs) =
      match matchParamAt (c :: cs) with
      | some (blk, rest') => blk :: findParamBlocksF fuel rest'
      | none => findParamBlocksF fuel cs := rfl

theorem findFnBlocksF_nil (fuel : Nat) : findFnBlocksF fuel [] = [] := by
  cases fuel <;> rfl

theorem findFnBlocksF_cons (fuel : Nat) (c : Char) (cs : List Char) :
    findFnBlocksF (fuel + 1) (c :: cs) =
      match matchFnAt (c :: cs) with
      | some (blk, rest') => blk :: findFnBlocksF fuel rest'
      | none => findFnBlocksF fuel cs := rfl

theorem findParamBlocksF_cons_match (fuel : Nat) (c : Char) (cs : List Char)
    (blk : List Char × List Char) (rest' : List Char)
    (hm : matchParamAt (c :: cs) = some (blk, rest')) :
    findParamBlocksF (fuel + 1) (c :: cs) = blk :: findParamBlocksF fuel rest' := by
  rw [findParamBlocksF_cons, hm]

theorem findParamBlocksF_cons_none (fuel : Nat) (c : Char) (cs : List Char)
    (hm : matchParamAt (c :: cs) = none) :
    findParamBlocksF (fuel + 1) (c :: cs) = findParamBlocksF fuel cs := by
  rw [findParamBlocksF_cons, hm]

theorem findFnBlocksF_cons_match (fuel : Nat) (c : Char) (cs : List Char)
    (blk : List Char × List Char) (rest' : List Char)
    (hm : matchFnAt (c :: cs) = some (blk, rest')) :
    findFnBlocksF (fuel + 1) (c :: cs) = blk :: findFnBlocksF fuel rest' := by
  rw [findFnBlocksF_cons, hm]

theorem findParamBlocksF_blob :
    ∀ (args : List (List Char × List Char)) (fuel : Nat),
      (paramsBlob args).length ≤ fuel →
      (∀ kv ∈ args, kv.1 ≠ [] ∧ '<' ∉ kv.1 ∧ '>' ∉ kv.1) →
      (∀ kv ∈ args, '<' ∉ kv.2) →
      findParamBlocksF fuel (paramsBlob args) = args := by
  intro args
  induction args with
  | nil =>
    intro fuel _ _ _
    exact findParamBlocksF_nil fuel
  | cons kv rest ih =>
    intro fuel hfuel hks hvs
    have hshape : paramsBlob (kv :: rest) =
        paramOpenTag ++ (kv.1 ++ ('>' :: (kv.2 ++ (paramCloseTag ++
          ('\n' :: paramsBlob rest))))) := by
      show paramOpenTag ++ kv.1 ++ ['>'] ++ kv.2 ++ paramCloseTag ++ ['\n'] ++
        paramsBlob rest = _
      simp [List.append_assoc]
    obtain ⟨hk1, hk2, hk3⟩ := hks kv (by simp)
    have hm : matchParamAt (paramsBlob (kv :: rest)) = some ((kv.1, kv.2),
        '\n' :: paramsBlob rest) := by
      rw [hshape]
      exact matchParamAt_shape kv.1 kv.2 _ hk1 hk3 (hvs kv (by simp))
    have hlength : (paramsBlob (kv :: rest)).length =
        25 + kv.1.length + kv.2.length + (paramsBlob rest).length := by
      show (paramOpenTag ++ kv.1 ++ ['>'] ++ kv.2 ++ paramCloseTag ++ ['\n'] ++
        paramsBlob rest).length = _
      simp [List.length_append, show paramOpenTag.length = 11 from rfl,
        show paramCloseTag.length = 12 from rfl]
      omega
    obtain ⟨f1, rfl⟩ : ∃ f1, fuel = f1 + 1 := by
      cases fuel with
      | zero => rw [hlength] at hfuel; omega
      | succ f => exact ⟨f, rfl⟩
    obtain ⟨c0, cs0, hc0⟩ : ∃ c0 cs0, paramsBlob (kv :: rest) = c0 :: cs0 := by
      cases hpb : paramsBlob (kv :: rest) with
      | nil => rw [hpb] at hlength; simp at hlength; omega
      | cons x xs => exact ⟨x, xs, rfl⟩
    obtain ⟨f2, rfl⟩ : ∃ f2, f1 = f2 + 1 := by
      cases f1 with
      | zero => rw [hlength] at hfuel; simp at hfuel; omega
      | succ f => exact ⟨f, rfl⟩
    rw [hc0] at hm ⊢
    rw [findParamBlocksF_cons_match (f2 + 1) c0 cs0 _ _ hm]
    rw [findParamBlocksF_cons_none f2 '\n' _
      (matchParamAt_none_of_head '\n' (by decide) _)]
    rw [ih f2 (by rw [hlength] at hfuel; omega)
      (fun q hq => hks q (by simp [hq])) (fun q hq => hvs q (by simp [hq]))]

theorem joinNL_cons_of_ne (x : List Char) (l : List (List Char)) (h : l ≠ []) :
    joinNL (x :: l) = x ++ '\n' :: joinNL l := by
  cases l with
  | nil => exact absurd rfl h
  | cons y r => rfl

theorem joinNL_params (args : List (List Char × List Char)) :
    joinNL ((args.map fun kv =>
        paramOpenTag ++ kv.1 ++ ['>'] ++ kv.2 ++ paramCloseTag) ++ [closeTag]) =
      paramsBlob args ++ closeTag := by
  induction args with
  | nil => simp [joinNL, paramsBlob]
  | cons kv rest ih =>
    rw [List.map_cons, List.cons_append,
      joinNL_cons_of_ne _ _ (by simp), ih]
    show _ = (paramOpenTag ++ kv.1 ++ ['>'] ++ kv.2 ++ paramCloseTag ++ ['\n'] ++
      paramsBlob rest) ++ closeTag
    simp [List.append_assoc]

theorem format_decomp (tool_name : List Char) (args : List (List Char × List Char)) :
    format_tool_call tool_name args =
      openTag ++ (tool_name ++ ('>' :: '\n' :: (paramsBlob args ++ closeTag))) := by
  show joinNL ((openTag ++ tool_name ++ ['>']) ::
    ((args.map fun kv => paramOpenTag ++ kv.1 ++ ['>'] ++ kv.2 ++ paramCloseTag)
      ++ [closeTag])) = _
  rw [joinNL_cons_of_ne (openTag ++ tool_name ++ ['>'])
    ((args.map fun kv => paramOpenTag ++ kv.1 ++ ['>'] ++ kv.2 ++ paramCloseTag)
      ++ [closeTag]) (by simp), joinNL_params]
  simp [List.append_assoc]

theorem matchFnAt_nil : matchFnAt [] = none := rfl

theorem findFnBlocks_single (s : List Char) (blk : List Char × List Char)
    (hm : matchFnAt s = some (blk, [])) : findFnBlocks s = [blk] := by
  cases s with
  | nil => rw [matchFnAt_nil] at hm; exact absurd hm (by simp)
  | cons c cs =>
    unfold findFnBlocks
    rw [List.length_cons, findFnBlocksF_cons_match cs.length c cs _ _ hm,
      findFnBlocksF_nil]

theorem format_has_closer (tool_name : List Char)
    (args : List (List Char × List Char)) :
    hasSub closeTag (format_tool_call tool_name args) = true := by
  rw [format_decomp]
  rw [show openTag ++ (tool_name ++ ('>' :: '\n' :: (paramsBlob args ++ closeTag))) =
    (openTag ++ tool_name ++ ['>'] ++ ['\n'] ++ paramsBlob args) ++ closeTag by
      simp [List.append_assoc]]
  exact hasSub_append_self _ closeTag

theorem htmlUnescapeF_no_amp :
    ∀ (fuel : Nat) (s : List Char), s.length ≤ fuel → '&' ∉ s →
      htmlUnescapeF fuel s = s := by
  intro fuel
  induction fuel with
  | zero => intro s _ _; rfl
  | succ fuel ih =>
    intro s hlen hmem
    cases s with
    | nil => rfl
    | cons c rest =>
      have hc : c ≠ '&' := fun hc => hmem (by simp [hc])
      show (if c = '&' then _ else c :: htmlUnescapeF fuel rest) = c :: rest
      rw [if_neg hc]
      rw [ih rest (by simpa using Nat.le_of_succ_le_succ hlen)
        (fun hm => hmem (by simp [hm]))]

theorem htmlUnescape_no_amp (s : List Char) (h : '&' ∉ s) : htmlUnescape s = s :=
  htmlUnescapeF_no_amp s.length s le_rfl h

theorem dictInsert_of_not_mem (k v : List Char) (d : List (List Char × List Char))
    (h : k ∉ d.map Prod.fst) : dictInsert k v d = d ++ [(k, v)] := by
  induction d with
  | nil => rfl
  | cons p rest ih =>
    have hne : p.1 ≠ k := fun hc => h (by simp [hc])
    rw [dictInsert]
    rw [if_neg hne]
    rw [ih (fun hm => h (by simp [hm]))]
    rfl

theorem dict_foldl_eq_append :
    ∀ (pairs : List (List Char × List Char)) (d : List (List Char × List Char)),
      (pairs.map Prod.fst).Nodup →
      (∀ kv ∈ pairs, htmlUnescape (pyStrip kv.2) = kv.2) →
      (∀ kv ∈ pairs, kv.1 ∉ d.map Prod.fst) →
      pairs.foldl (fun d kv => dictInsert kv.1 (htmlUnescape (pyStrip kv.2)) d) d =
        d ++ pairs := by
  intro pairs
  induction pairs with
  | nil => intro d _ _ _; simp
  | cons kv rest ih =>
    intro d hnd hval hkey
    rw [List.foldl_cons]
    rw [hval kv (by simp)]
    rw [dictInsert_of_not_mem kv.1 kv.2 d (hkey kv (by simp))]
    rw [ih (d ++ [(kv.1, kv.2)]) (by simpa using (List.nodup_cons.mp (by simpa using hnd)).2)
      (fun q hq => hval q (by simp [hq])) ?_]
    · simp
    · intro q hq
      rw [List.map_append]
      intro hmem
      rcases List.mem_append.mp hmem with hmem | hmem
      · exact hkey q (by simp [hq]) hmem
      · simp at hmem
        have hqk : q.1 ≠ kv.1 := by
          have hnodup := hnd
          rw [List.map_cons, List.nodup_cons] at hnodup
          exact fun hc => hnodup.1 (hc ▸ List.mem_map_of_mem Prod.fst hq)
        exact hqk hmem

theorem parseParams_blob (args : List (List Char × List Char))
    (hnd : (args.map Prod.fst).Nodup)
    (hks : ∀ kv ∈ args, kv.1 ≠ [] ∧ '<' ∉ kv.1 ∧ '>' ∉ kv.1)
    (hvs : ∀ kv ∈ args, '<' ∉ kv.2 ∧ '&' ∉ kv.2 ∧ pyStrip kv.2 = kv.2) :
    parseParams (paramsBlob args) = args := by
  unfold parseParams
  unfold findParamBlocks
  rw [findParamBlocksF_blob args (paramsBlob args).length le_rfl hks
    (fun kv hkv => (hvs kv hkv).1)]
  have h := dict_foldl_eq_append args [] hnd
    (fun kv hkv => by rw [(hvs kv hkv).2.2]; exact htmlUnescape_no_amp _ (hvs kv hkv).2.1)
    (fun kv _ => by simp)
  simpa using h

/-- Counterexample for C1: a parameter value with surrounding whitespace (no
`'<'` or `'>'` in it) does not round-trip — decoding strips it. -/
theorem c1_counterexample :
    parse_tool_invocations (format_tool_call "f".toList [("k".toList, " a ".toList)]) ≠
      some [⟨"f".toList, [("k".toList, " a ".toList)]⟩] := by decide

/-- Claim C1 (amended): encoding `list_files {path: /tmp}` yields exactly the
documented wire text; and for every non-empty tool name without `'>'` and
every argument mapping with distinct non-empty keys free of `'<'` and `'>'`
and values free of `'<'` and `'&'` that carry no leading or trailing
whitespace, decoding the encoded call yields exactly one invocation with the
same name and the same argument mapping. -/
theorem c1_roundtrip_amended :
    (format_tool_call "list_files".toList [("path".toList, "/tmp".toList)] =
      "<function=list_files>\n<parameter=path>/tmp</parameter>\n</function>".toList) ∧
    ∀ (tool_name : List Char) (args : List (List Char × List Char)),
      tool_name ≠ [] → '>' ∉ tool_name →
      (args.map Prod.fst).Nodup →
      (∀ kv ∈ args, kv.1 ≠ [] ∧ '<' ∉ kv.1 ∧ '>' ∉ kv.1) →
      (∀ kv ∈ args, '<' ∉ kv.2 ∧ '&' ∉ kv.2 ∧ pyStrip kv.2 = kv.2) →
      parse_tool_invocations (format_tool_call tool_name args) =
        some [⟨tool_name, args⟩] := by
  refine ⟨by decide, ?_⟩
  intro tool_name args hn hgt hnd hks hvs
  have hfix : fix_incomplete_tool_call (format_tool_call tool_name args) =
      format_tool_call tool_name args :=
    fix_of_has_closer _ (format_has_closer tool_name args)
  have hmatch : matchFnAt (format_tool_call tool_name args) =
      some ((tool_name, paramsBlob args), []) := by
    rw [format_decomp]
    exact matchFnAt_shape tool_name (paramsBlob args) hn hgt
      (blob_noOcc args (fun kv hkv => (hks kv hkv).2.1)
        (fun kv hkv => (hvs kv hkv).1) closeTag)
  have hblocks : findFnBlocks (format_tool_call tool_name args) =
      [(tool_name, paramsBlob args)] := findFnBlocks_single _ _ hmatch
  simp only [parse_tool_invocations]
  rw [hfix, hblocks]
  rw [List.map_cons, List.map_nil]
  rw [parseParams_blob args hnd hks hvs]
  rfl

/-- Witness for C1 (amended) at the documented scenario: decoding the encoded
`list_files {path: /tmp}` call returns exactly that invocation. -/
theorem c1_roundtrip_amended_witness :
    parse_tool_invocations
        (format_tool_call "list_files".toList [("path".toList, "/tmp".toList)]) =
      some [⟨"list_files".toList, [("path".toList, "/tmp".toList)]⟩] :=
  c1_roundtrip_amended.2 "list_files".toList [("path".toList, "/tmp".toList)]
    (by decide) (by decide) (by decide) (by decide) (by decide)

/-! ## Store-model frame facts (claims C8, C10) -/

theorem preserved_refl (st : Store) : Preserved st st :=
  ⟨le_rfl, le_rfl, fun _ _ => rfl, fun _ _ => rfl⟩

theorem preserved_trans {st0 st1 st2 : Store}
    (h1 : Preserved st0 st1) (h2 : Preserved st1 st2) : Preserved st0 st2 := by
  refine ⟨le_trans h1.listsLen h2.listsLen, le_trans h1.dictsLen h2.dictsLen, ?_, ?_⟩
  · intro b hb
    rw [h2.listsAt b (lt_of_lt_of_le hb h1.listsLen), h1.listsAt b hb]
  · intro b hb
    rw [h2.dictsAt b (lt_of_lt_of_le hb h1.dictsLen), h1.dictsAt b hb]

theorem preserved_allocList (st : Store) (l : List PyVal) :
    Preserved st (allocList st l).2 := by
  refine ⟨by simp [allocList], by simp [allocList], ?_, ?_⟩
  · intro b hb
    exact List.getElem?_append_left hb
  · intro _ _
    rfl

theorem preserved_allocDict (st : Store) (d : List (List Char × PyVal)) :
    Preserved st (allocDict st d).2 := by
  refine ⟨by simp [allocDict], by simp [allocDict], ?_, ?_⟩
  · intro _ _
    rfl
  · intro b hb
    exact List.getElem?_append_left hb

theorem preserved_listWrite {st0 st : Store} (a : Nat) (l : List PyVal)
    (ha : st0.lists.length ≤ a) (hp : Preserved st0 st) :
    Preserved st0 (listWrite st a l) := by
  refine ⟨by simp [listWrite]; exact hp.listsLen, by simp [listWrite]; exact hp.dictsLen,
    ?_, ?_⟩
  · intro b hb
    have hne : a ≠ b := by omega
    show (st.lists.set a l)[b]? = _
    rw [List.getElem?_set_ne hne]
    exact hp.listsAt b hb
  · intro b hb
    exact hp.dictsAt b hb

theorem preserved_dictWrite {st0 st : Store} (a : Nat) (k : List Char) (v : PyVal)
    (ha : st0.dicts.length ≤ a) (hp : Preserved st0 st) :
    Preserved st0 (dictWrite st a k v) := by
  refine ⟨by simp [dictWrite]; exact hp.listsLen, by simp [dictWrite]; exact hp.dictsLen,
    ?_, ?_⟩
  · intro b hb
    exact hp.listsAt b hb
  · intro b hb
    have hne : a ≠ b := by omega
    show (st.dicts.set a _)[b]? = _
    rw [List.getElem?_set_ne hne]
    exact hp.dictsAt b hb

theorem preserved_addCacheControlSt (st : Store) (v : PyVal) :
    Preserved st (addCacheControlSt st v).2 := by
  cases v with
  | vstr s =>
    exact preserved_trans (preserved_allocDict st _)
      (preserved_trans (preserved_allocDict _ _) (preserved_allocList _ _))
  | vlist a =>
    simp only [addCacheControlSt]
    split
    · split
      · exact preserved_trans (preserved_allocDict st _)
          (preserved_trans (preserved_allocDict _ _) (preserved_allocList _ _))
      · exact preserved_refl st
    · exact preserved_refl st
  | vdict a => exact preserved_refl st

theorem preserved_markAtSt (st0 st : Store) (ca p : Nat)
    (hca : st0.lists.length ≤ ca) (hp : Preserved st0 st) :
    Preserved st0 (markAtSt st ca p) := by
  unfold markAtSt
  cases helem : (listAt st ca).getD p (.vstr []) with
  | vstr s => exact hp
  | vlist b => exact hp
  | vdict d =>
    refine preserved_listWrite ca _ hca ?_
    refine preserved_dictWrite _ _ _ (le_trans hp.dictsLen ?_) ?_
    · exact le_rfl
    · exact preserved_trans hp
        (preserved_trans (preserved_allocDict st _) (preserved_addCacheControlSt _ _))

theorem preserved_cacheLoopSt :
    ∀ (ps : List Nat) (st0 st : Store) (ca count : Nat),
      st0.lists.length ≤ ca → Preserved st0 st →
      Preserved st0 (cacheLoopSt st ca ps count) := by
  intro ps
  induction ps with
  | nil => intro st0 st ca count _ hp; exact hp
  | cons p rest ih =>
    intro st0 st ca count hca hp
    rw [cacheLoopSt]
    by_cases h3 : 3 ≤ count
    · rw [if_pos h3]; exact hp
    · rw [if_neg h3]
      by_cases hlt : p < (listAt st ca).length
      · rw [if_pos hlt]
        exact ih st0 _ ca _ hca (preserved_markAtSt st0 st ca p hca hp)
      · rw [if_neg hlt]
        exact ih st0 st ca _ hca hp

/-- The store-level cache preparation never writes a pre-existing object. -/
theorem prepareCachedMessagesSt_preserved (cfg : LLMCfg) (st : Store) (a : Nat) :
    Preserved st (prepareCachedMessagesSt cfg st a).2 := by
  unfold prepareCachedMessagesSt
  split
  · exact preserved_refl st
  · split
    · exact preserved_refl st
    · simp only [allocList]
      have hp1 : Preserved st
          { st with lists := st.lists ++ [listAt st a] } :=
        preserved_allocList st (listAt st a)
      split
      · split
        · split
          · exact preserved_cacheLoopSt _ st _ _ _ le_rfl
              (preserved_markAtSt st _ _ 0 le_rfl hp1)
          · exact preserved_cacheLoopSt _ st _ _ _ le_rfl hp1
        · exact preserved_cacheLoopSt _ st _ _ _ le_rfl hp1
      · split
        · split
          · exact preserved_markAtSt st _ _ 0 le_rfl hp1
          · exact hp1
        · exact hp1

/-- The store-level cache preparation returns either the input list object
(pass-through) or the freshly allocated copy. -/
theorem prepareCachedMessagesSt_addr (cfg : LLMCfg) (st : Store) (a : Nat) :
    (prepareCachedMessagesSt cfg st a).1 = a ∨
    (prepareCachedMessagesSt cfg st a).1 = st.lists.length := by
  unfold prepareCachedMessagesSt
  split
  · exact Or.inl rfl
  · split
    · exact Or.inl rfl
    · simp only [allocList]
      split
      · exact Or.inr rfl
      · exact Or.inr rfl

/-- Claim C10: `_prepare_cached_messages` never mutates caller-visible
objects — every list and dict object existing before the call has identical
contents afterwards (cache markers live only in freshly allocated objects),
and the returned list is either the untouched input list or a fresh copy. -/
theorem c10_cache_no_mutation (cfg : LLMCfg) (st : Store) (msgsAddr : Nat) :
    (∀ b, b < st.lists.length →
      ((prepareCachedMessagesSt cfg st msgsAddr).2).lists[b]? = st.lists[b]?) ∧
    (∀ b, b < st.dicts.length →
      ((prepareCachedMessagesSt cfg st msgsAddr).2).dicts[b]? = st.dicts[b]?) ∧
    ((prepareCachedMessagesSt cfg st msgsAddr).1 = msgsAddr ∨
     (prepareCachedMessagesSt cfg st msgsAddr).1 = st.lists.length) :=
  ⟨(prepareCachedMessagesSt_preserved cfg st msgsAddr).listsAt,
   (prepareCachedMessagesSt_preserved cfg st msgsAddr).dictsAt,
   prepareCachedMessagesSt_addr cfg st msgsAddr⟩

/-- Witness for C10 at a one-message store on the caching path: the original
message dict and the input list are unchanged after preparation. -/
theorem c10_cache_no_mutation_witness :
    ((prepareCachedMessagesSt ⟨true, true, "claude".toList⟩
        ⟨[[PyVal.vdict 0]], [[("role".toList, PyVal.vstr "system".toList),
          ("content".toList, PyVal.vstr "p".toList)]]⟩ 0).2).dicts[0]? =
      some [("role".toList, PyVal.vstr "system".toList),
        ("content".toList, PyVal.vstr "p".toList)] := by
  rw [(c10_cache_no_mutation ⟨true, true, "claude".toList⟩
    ⟨[[PyVal.vdict 0]], [[("role".toList, PyVal.vstr "system".toList),
      ("content".toList, PyVal.vstr "p".toList)]]⟩ 0).2.1 0 (by decide)]
  rfl

theorem listAt_eq_getElem? (st : Store) (a : Nat) :
    listAt st a = (st.lists[a]?).getD [] := by
  unfold listAt
  rw [List.getD_eq_getElem?_getD]

theorem buildIdentityMessageSt_lists (ident : AgentIdent) (st : Store) :
    ((buildIdentityMessageSt ident st).2).lists = st.lists := by
  unfold buildIdentityMessageSt
  split
  · rfl
  · split
    · rfl
    · rfl

theorem buildIdentityMessageSt_dictsLen (ident : AgentIdent) (st : Store) :
    st.dicts.length ≤ ((buildIdentityMessageSt ident st).2).dicts.length := by
  unfold buildIdentityMessageSt
  split
  · exact le_rfl
  · split
    · exact le_rfl
    · simp [allocDict]

theorem listAt_lists (st : Store) (a : Nat) : listAt st a = st.lists.getD a [] := rfl

theorem getD_append_left_list (L : List (List PyVal)) (x : List PyVal) (a : Nat)
    (h : a < L.length) : (L ++ [x]).getD a [] = L.getD a [] := by
  rw [List.getD_eq_getElem?_getD, List.getD_eq_getElem?_getD,
    List.getElem?_append_left h]

theorem listAt_write_ne (st : Store) (a b : Nat) (l : List PyVal) (h : a ≠ b) :
    listAt (listWrite st a l) b = listAt st b := by
  unfold listAt listWrite
  rw [List.getD_eq_getElem?_getD, List.getD_eq_getElem?_getD]
  show ((st.lists.set a l)[b]?).getD [] = _
  rw [List.getElem?_set_ne h]

theorem lists_getElem?_write_self (st : Store) (a : Nat) (l : List PyVal)
    (h : a < st.lists.length) : (listWrite st a l).lists[a]? = some l := by
  show (st.lists.set a l)[a]? = some l
  exact List.getElem?_set_self h

theorem lists_getElem?_write_ne (st : Store) (a b : Nat) (l : List PyVal)
    (h : a ≠ b) : (listWrite st a l).lists[b]? = st.lists[b]? := by
  show (st.lists.set a l)[b]? = _
  exact List.getElem?_set_ne h

/-- The common tail of the history-rewrite argument: once the history object
has been rewritten, the later messages-list write and the cache preparation
leave it untouched. -/
theorem write_then_preserved (stX : Store) (hist ms : Nat) (C app2 : List PyVal)
    (cfg : LLMCfg) (hne : ms ≠ hist) (hlt : hist < stX.lists.length) :
    ((prepareCachedMessagesSt cfg
        (listWrite (listWrite stX hist C) ms app2) ms).2).lists[hist]? = some C := by
  have hlt2 : hist < (listWrite (listWrite stX hist C) ms app2).lists.length := by
    show hist < ((stX.lists.set hist C).set ms app2).length
    simpa using hlt
  rw [(prepareCachedMessagesSt_preserved cfg _ ms).listsAt hist hlt2]
  rw [lists_getElem?_write_ne _ _ _ _ hne]
  exact lists_getElem?_write_self _ _ _ hlt

/-- Claim C8: after message preparation the caller's conversation-history
list object holds exactly the compressed history — `h.clear(); h.extend(c)`
rewrites it in place, and nothing downstream writes it again. -/
theorem c8_history_compressed_in_place (cfg : LLMCfg) (ident : AgentIdent)
    (systemPrompt : List Char) (compress : List PyVal → List PyVal)
    (st : Store) (histAddr : Nat) (h : histAddr < st.lists.length) :
    ((prepareMessagesSt cfg ident systemPrompt compress st histAddr).2).lists[histAddr]?
      = some (compress (listAt st histAddr)) := by
  unfold prepareMessagesSt
  simp only [allocDict, allocList]
  split
  next idD stA heq =>
    have hA : stA.lists = ((buildIdentityMessageSt ident _).2).lists :=
      (congrArg (fun p => (p.2).lists) heq).symm
    rw [buildIdentityMessageSt_lists] at hA
    have hA' : stA.lists = st.lists ++ [[PyVal.vdict st.dicts.length]] := hA
    have hlt3 : histAddr <
        (listWrite stA st.lists.length
          (listAt stA st.lists.length ++ [PyVal.vdict idD])).lists.length := by
      show histAddr < (stA.lists.set _ _).length
      rw [List.length_set, hA']
      simp
      omega
    refine Eq.trans
      (write_then_preserved _ histAddr st.lists.length _ _ cfg (by omega) hlt3) ?_
    refine congrArg (fun L => some (compress L)) ?_
    rw [listAt_write_ne _ _ _ _ (by omega)]
    rw [listAt_lists, hA', getD_append_left_list _ _ _ h]
    rfl
  next stA heq =>
    have hA : stA.lists = ((buildIdentityMessageSt ident _).2).lists :=
      (congrArg (fun p => (p.2).lists) heq).symm
    rw [buildIdentityMessageSt_lists] at hA
    have hA' : stA.lists = st.lists ++ [[PyVal.vdict st.dicts.length]] := hA
    have hlt3 : histAddr < stA.lists.length := by
      rw [hA']
      simp
      omega
    refine Eq.trans
      (write_then_preserved _ histAddr st.lists.length _ _ cfg (by omega) hlt3) ?_
    refine congrArg (fun L => some (compress L)) ?_
    rw [listAt_lists, hA', getD_append_left_list _ _ _ h]
    rfl

/-- Witness for C8 at a one-element history with the identity compressor:
after preparation the history object holds the (identically) compressed
contents. -/
theorem c8_history_compressed_in_place_witness :
    ((prepareMessagesSt ⟨false, false, []⟩ ⟨none, none⟩ [] (fun l => l)
        ⟨[[PyVal.vstr []]], []⟩ 0).2).lists[0]? = some [PyVal.vstr []] :=
  c8_history_compressed_in_place ⟨false, false, []⟩ ⟨none, none⟩ [] (fun l => l)
    ⟨[[PyVal.vstr []]], []⟩ 0 (by decide)

end Strix
